import Mathlib

/-! Shitama client: shard directory, RTT probing, ranking and link supervision.

A shallow embedding of `client/lib/client.go`.

* Stateful methods of `Client` become functions from a client state (and an
  environment giving the answers of the collaborators) to an `Outcome`: the
  returned value, the next client state and the trace of observable calls, or
  `fatal` when `logger.Fatal` ends the process.
* `uint64` arithmetic is `Nat` arithmetic modulo `2^64`.
* `float32` round-trip times are exact rationals (rounding is set aside).
* `sort.Sort` is the code of package `sort` of the Go standard library, run
  through `ShardInfoSlice.Len`, `ShardInfoSlice.Less` and `ShardInfoSlice.Swap`.
* Time is a natural number of nanoseconds on the monotonic clock.
-/

namespace Shitama

/-! ## Data model -/

/-- Modelled from the spec: the declaration of `ShardInfo` is outside `client.go`;
the code reads and writes only its fields `Addr` (a `host:port` string) and `RTT`
(a `float32` number of milliseconds, here an exact rational). -/
structure ShardInfo where
  Addr : String
  RTT : ℚ
  deriving DecidableEq

/-- The slice type `ShardInfoSlice []ShardInfo` that implements `sort.Interface`. -/
abbrev ShardInfoSlice := List ShardInfo

/-- The method `ShardInfoSlice.Len`. -/
def ShardInfoSlice.Len (s : ShardInfoSlice) : Nat := s.length

/-- The method `ShardInfoSlice.Less`: `s[i].RTT < s[j].RTT` (indices in range). -/
def ShardInfoSlice.Less (s : ShardInfoSlice) (i j : Nat) : Bool :=
  match s[i]?, s[j]? with
  | some a, some b => decide (a.RTT < b.RTT)
  | _, _ => false

/-- The method `ShardInfoSlice.Swap`: `s[i], s[j] = s[j], s[i]` (indices in range). -/
def ShardInfoSlice.Swap (s : ShardInfoSlice) (i j : Nat) : ShardInfoSlice :=
  match s[i]?, s[j]? with
  | some a, some b => (s.set i b).set j a
  | _, _ => s

/-- A resolved UDP address, the result of `net.ResolveUDPAddr("udp4", _)`. -/
structure UDPAddr where
  IP : String
  Port : Nat
  deriving DecidableEq

/-- Modelled from the spec: the data-plane link `UDPLink` is declared outside
`client.go`; it is constructed from the shard address and the host address and
offers `Start()` and `Stop()`. The field `id` is the identity of the allocated
object (`c.link` is a pointer). -/
structure UDPLink where
  id : Nat
  shardAddr : Option UDPAddr
  hostAddr : UDPAddr
  deriving DecidableEq

/-- Observable calls made by the client, in program order. -/
inductive Event where
  | zGetShards
  | zShardRelay (shardAddr transport : String)
  | listenPacket
  | writeTo (addr : UDPAddr)
  | closeSocket
  | warn
  | linkStop (id : Nat)
  | linkStart (id : Nat)
  deriving DecidableEq

/-- The fields of `Client` that the methods below read or write. `allocs` counts
the `UDPLink` objects allocated so far and gives each new one its identity. -/
structure Client where
  connected : Bool
  shards : List ShardInfo
  link : Option UDPLink
  allocs : Nat
  deriving DecidableEq

/-- A datagram read by the background reader of `updateRTTs`: the instant at
which the reader is ready to hand it over on the channel, the sender address
string, the wall clock read after the datagram came in, and the 8-byte
timestamp found in the datagram. -/
structure Reply where
  arrival : Nat
  key : String
  now : Nat
  sent : Nat

/-- The local type `Pair` of `updateRTTs`. -/
structure Pair where
  key : String
  value : Nat
  deriving DecidableEq

/-- Answers of the collaborators and of the network for one call. -/
structure Env where
  /-- Result of `Tunnel.zGetShards()`; `none` is a nil slice. -/
  getShards : Option (List ShardInfo)
  /-- Result of `Tunnel.zShardRelay(shardAddr, transport)`. -/
  shardRelay : String → String → String × String
  /-- Result of `net.ResolveUDPAddr("udp4", _)`; `none` is an error. -/
  resolve : String → Option UDPAddr
  /-- Whether `net.ListenPacket("udp4", "0.0.0.0:0")` succeeds. -/
  listenOk : Bool
  /-- Instant at which `WaitLoop` is entered. -/
  start : Nat
  /-- Datagrams the background reader gets, in order. -/
  replies : List Reply

/-- What a call does: it returns a value after a trace of calls, or the process
is ended by `logger.Fatal` after a trace of calls. -/
inductive Outcome (α : Type) where
  | ret (val : α) (trace : List Event)
  | fatal (trace : List Event)
  deriving DecidableEq

/-! ## `findShardByAddr` -/

/-- The loop of `Client.findShardByAddr` over `c.shards`. -/
def findShard (addr : String) : List ShardInfo → Option ShardInfo
  | [] => none
  | shard :: rest => if shard.Addr = addr then some shard else findShard addr rest

/-- The method `Client.findShardByAddr`: a copy of the first shard with that
address, or `none` for nil. -/
def findShardByAddr (c : Client) (addr : String) : Option ShardInfo :=
  findShard addr c.shards

/-! ## `updateRTTs` -/

/-- Wrap to `uint64`. -/
def u64 (n : Nat) : Nat := n % 2 ^ 64

/-- One second in nanoseconds, `1 * time.Second`. -/
def second : Nat := 1000000000

/-- The pair sent on the channel for a datagram: `Pair{key, now - then}` in
`uint64` arithmetic. -/
def pairOf (r : Reply) : Pair :=
  { key := r.key, value := u64 (u64 r.now + 2 ^ 64 - u64 r.sent) }

/-- The map update of the first `select` case:
`shardRTTs[v.key] = append(shardRTTs[v.key], v.value)`. -/
def addSample (shardRTTs : String → Option (List Nat)) (v : Pair) :
    String → Option (List Nat) :=
  fun k => if k = v.key then some ((shardRTTs k).getD [] ++ [v.value]) else shardRTTs k

/-- The loop `WaitLoop`, entered at instant `t`. Each iteration evaluates
`time.After(1 * time.Second)` anew; a pair that is ready before that timer
fires is received (at the later of `t` and its arrival) and the loop goes
round again, otherwise the timer case breaks out of the loop. Returns the
collected map and the instant at which the loop is left. -/
def waitLoop : Nat → List Reply → (String → Option (List Nat)) →
    (String → Option (List Nat)) × Nat
  | t, [], shardRTTs => (shardRTTs, t + second)
  | t, r :: rest, shardRTTs =>
    if r.arrival < t + second then
      waitLoop (max t r.arrival) rest (addSample shardRTTs (pairOf r))
    else (shardRTTs, t + second)

/-- The map `shardRTTs` as it stands when `WaitLoop` is left. -/
def collected (env : Env) : String → Option (List Nat) :=
  (waitLoop env.start env.replies (fun _ => none)).1

/-- The inner loop `for _, v := range rtts { sum += v }` on a `uint64`. -/
def sumRTTs (rtts : List Nat) : Nat :=
  rtts.foldl (fun sum v => u64 (sum + v)) 0

/-- The body of the last loop of `updateRTTs` for one shard. -/
def setRTT (shardRTTs : String → Option (List Nat)) (shard : ShardInfo) : ShardInfo :=
  match shardRTTs shard.Addr with
  | some rtts => { shard with RTT := (sumRTTs rtts : ℚ) / 1000000 / (rtts.length : ℚ) }
  | none => shard

/-- The send loop of `updateRTTs`: a warning for an address that does not
resolve, otherwise 16 writes of the probe. -/
def sendProbes (resolve : String → Option UDPAddr) : List ShardInfo → List Event
  | [] => []
  | shard :: rest =>
    (match resolve shard.Addr with
      | none => [Event.warn]
      | some addr => List.replicate 16 (Event.writeTo addr)) ++ sendProbes resolve rest

/-- The method `Client.updateRTTs`; returns the slice as left by the in-place
updates. -/
def updateRTTs (env : Env) (shards : List ShardInfo) : Outcome (List ShardInfo) :=
  if env.listenOk then
    Outcome.ret (shards.map (setRTT (collected env)))
      (Event.listenPacket :: sendProbes env.resolve shards ++ [Event.closeSocket])
  else Outcome.fatal [Event.listenPacket]

/-! ## `sort.Sort`

`UpdateShards` ranks with `sort.Sort(ShardInfoSlice(shards))`. The function is
in package `sort` of the Go standard library; what follows is its code as of
go1.19 and later (pattern-defeating quicksort), driven through `Len`, `Less`
and `Swap` of `ShardInfoSlice`. Loops become recursive functions; where a
loop has no counter of its own, a `fuel` argument bounds its rounds by a
quantity that shrinks in every round, so that the bound is reached only when
the loop is over. -/

/-- The type `sortedHint` of package `sort`. -/
inductive sortedHint where
  | unknownHint
  | increasingHint
  | decreasingHint
  deriving DecidableEq

/-- The inner loop of `insertionSort`:
`for j := i; j > a && data.Less(j, j-1); j-- { data.Swap(j, j-1) }`. -/
def insertionShift (a : Nat) : ShardInfoSlice → Nat → ShardInfoSlice
  | data, 0 => data
  | data, j + 1 =>
    if a < j + 1 && ShardInfoSlice.Less data (j + 1) j then
      insertionShift a (ShardInfoSlice.Swap data (j + 1) j) j
    else data

/-- The function `insertionSort(data, a, b)`: the outer loop
`for i := a + 1; i < b; i++`. -/
def insertionSort (data : ShardInfoSlice) (a b : Nat) : ShardInfoSlice :=
  (List.range' (a + 1) (b - (a + 1))).foldl (fun d i => insertionShift a d i) data

/-- The loop of `siftDown(data, lo, hi, first)` from `root`; `fuel` bounds the
number of rounds (`root` grows in each round and stays below `hi`). -/
def siftDownLoop (hi first : Nat) : Nat → ShardInfoSlice → Nat → ShardInfoSlice
  | 0, data, _ => data
  | fuel + 1, data, root =>
    if 2 * root + 1 ≥ hi then data
    else
      let child :=
        if 2 * root + 1 + 1 < hi &&
            ShardInfoSlice.Less data (first + (2 * root + 1)) (first + (2 * root + 1) + 1)
        then 2 * root + 1 + 1 else 2 * root + 1
      if !ShardInfoSlice.Less data (first + root) (first + child) then data
      else siftDownLoop hi first fuel (ShardInfoSlice.Swap data (first + root) (first + child)) child

/-- The function `siftDown(data, lo, hi, first)`. -/
def siftDown (data : ShardInfoSlice) (lo hi first : Nat) : ShardInfoSlice :=
  siftDownLoop hi first hi data lo

/-- The function `heapSort(data, a, b)`: build the heap with
`for i := (hi - 1) / 2; i >= 0; i--`, then pop with `for i := hi - 1; i >= 0; i--`. -/
def heapSort (data : ShardInfoSlice) (a b : Nat) : ShardInfoSlice :=
  let first := a
  let lo := 0
  let hi := b - a
  let built := (List.range ((hi - 1) / 2 + 1)).reverse.foldl
    (fun d i => siftDown d i hi first) data
  (List.range hi).reverse.foldl
    (fun d i => siftDown (ShardInfoSlice.Swap d first (first + i)) lo i first) built

/-- A loop `for i <= j && cond(i) { i++ }`; `n` is `j + 1 - i`. -/
def scanUp (cond : Nat → Bool) : Nat → Nat → Nat
  | 0, i => i
  | n + 1, i => if cond i then scanUp cond n (i + 1) else i

/-- A loop `for i <= j && cond(j) { j-- }`; `n` is `j + 1 - i`. -/
def scanDown (cond : Nat → Bool) : Nat → Nat → Nat
  | 0, j => j
  | n + 1, j => if cond j then scanDown cond n (j - 1) else j

/-- The second loop of `partition`, from the state `(data, i, j)`; `fuel` bounds
the number of rounds (`j + 1 - i` shrinks in each round). -/
def partitionLoop (a : Nat) : Nat → ShardInfoSlice → Nat → Nat → ShardInfoSlice × Nat × Nat
  | 0, data, i, j => (data, i, j)
  | fuel + 1, data, i, j =>
    let i1 := scanUp (fun k => ShardInfoSlice.Less data k a) (j + 1 - i) i
    let j1 := scanDown (fun k => !ShardInfoSlice.Less data k a) (j + 1 - i1) j
    if i1 > j1 then (data, i1, j1)
    else partitionLoop a fuel (ShardInfoSlice.Swap data i1 j1) (i1 + 1) (j1 - 1)

/-- The function `partition(data, a, b, pivot)`; returns the data, `newpivot` and
`alreadyPartitioned`. -/
def partition (data : ShardInfoSlice) (a b pivot : Nat) : ShardInfoSlice × Nat × Bool :=
  let data0 := ShardInfoSlice.Swap data a pivot
  let i := a + 1
  let j := b - 1
  let i1 := scanUp (fun k => ShardInfoSlice.Less data0 k a) (j + 1 - i) i
  let j1 := scanDown (fun k => !ShardInfoSlice.Less data0 k a) (j + 1 - i1) j
  if i1 > j1 then (ShardInfoSlice.Swap data0 j1 a, j1, true)
  else
    let r := partitionLoop a (b - a) (ShardInfoSlice.Swap data0 i1 j1) (i1 + 1) (j1 - 1)
    (ShardInfoSlice.Swap r.1 r.2.2 a, r.2.2, false)

/-- The loop of `partitionEqual`, from the state `(data, i, j)`. -/
def partitionEqualLoop (a : Nat) : Nat → ShardInfoSlice → Nat → Nat → ShardInfoSlice × Nat
  | 0, data, i, _ => (data, i)
  | fuel + 1, data, i, j =>
    let i1 := scanUp (fun k => !ShardInfoSlice.Less data a k) (j + 1 - i) i
    let j1 := scanDown (fun k => ShardInfoSlice.Less data a k) (j + 1 - i1) j
    if i1 > j1 then (data, i1)
    else partitionEqualLoop a fuel (ShardInfoSlice.Swap data i1 j1) (i1 + 1) (j1 - 1)

/-- The function `partitionEqual(data, a, b, pivot)`; returns the data and `newpivot`. -/
def partitionEqual (data : ShardInfoSlice) (a b pivot : Nat) : ShardInfoSlice × Nat :=
  partitionEqualLoop a (b - a + 1) (ShardInfoSlice.Swap data a pivot) (a + 1) (b - 1)

/-- The loop `for j := i + 1; j < b; j++ { if !data.Less(j, j-1) { break }; data.Swap(j, j-1) }`
of `partialInsertionSort`; `n` is `b - j`. -/
def shiftRight : Nat → ShardInfoSlice → Nat → ShardInfoSlice
  | 0, data, _ => data
  | n + 1, data, j =>
    if !ShardInfoSlice.Less data j (j - 1) then data
    else shiftRight n (ShardInfoSlice.Swap data j (j - 1)) (j + 1)

/-- The loop `for j := 0; j < maxSteps; j++` of `partialInsertionSort`; `steps` is
the number of rounds left. The loop `for j := i - 1; j >= 1; j--` that shifts the
smaller element to the left is `insertionShift` with lower bound `0`. -/
def partialInsertionLoop (a b : Nat) : Nat → ShardInfoSlice → Nat → ShardInfoSlice × Bool
  | 0, data, _ => (data, false)
  | steps + 1, data, i =>
    let i1 := scanUp (fun k => !ShardInfoSlice.Less data k (k - 1)) (b - i) i
    if i1 = b then (data, true)
    else if b - a < 50 then (data, false)
    else
      let d1 := ShardInfoSlice.Swap data i1 (i1 - 1)
      let d2 := if i1 - a ≥ 2 then insertionShift 0 d1 (i1 - 1) else d1
      let d3 := if b - i1 ≥ 2 then shiftRight (b - (i1 + 1)) d2 (i1 + 1) else d2
      partialInsertionLoop a b steps d3 i1

/-- The function `partialInsertionSort(data, a, b)` with `maxSteps = 5` and
`shortestShifting = 50`. -/
def partialInsertionSort (data : ShardInfoSlice) (a b : Nat) : ShardInfoSlice × Bool :=
  partialInsertionLoop a b 5 data (a + 1)

/-- The function `bits.Len`: the number of bits needed to write `n`. -/
def bitsLen : Nat → Nat → Nat
  | 0, _ => 0
  | fuel + 1, n => if n = 0 then 0 else bitsLen fuel (n / 2) + 1

/-- The method `xorshift.Next` on a `uint64` state:
`r ^= r << 13; r ^= r >> 17; r ^= r << 5`. -/
def xorshiftNext (r : Nat) : Nat :=
  let r1 := r ^^^ ((r <<< 13) % 2 ^ 64)
  let r2 := r1 ^^^ (r1 >>> 17)
  r2 ^^^ ((r2 <<< 5) % 2 ^ 64)

/-- The function `nextPowerOfTwo(length)`: `1 << bits.Len(length)`. -/
def nextPowerOfTwo (length : Nat) : Nat := 2 ^ bitsLen length length

/-- The loop `for i := 0; i < 3; i++` of `breakPatterns`, from round `i` with
`n` rounds left. -/
def breakPatternsLoop (a length modulus idx : Nat) : Nat → ShardInfoSlice → Nat → Nat →
    ShardInfoSlice
  | 0, data, _, _ => data
  | n + 1, data, random, i =>
    let random1 := xorshiftNext random
    let other0 := random1 &&& (modulus - 1)
    let other := if other0 ≥ length then other0 - length else other0
    breakPatternsLoop a length modulus idx n (ShardInfoSlice.Swap data (idx - 1 + i) (a + other))
      random1 (i + 1)

/-- The function `breakPatterns(data, a, b)`. -/
def breakPatterns (data : ShardInfoSlice) (a b : Nat) : ShardInfoSlice :=
  let length := b - a
  if length ≥ 8 then
    breakPatternsLoop a length (nextPowerOfTwo length) (a + (length / 4) * 2 - 1) 3 data length 0
  else data

/-- The function `order2(data, a, b, swaps)`; returns the two indices and the
updated counter. -/
def order2 (data : ShardInfoSlice) (a b swaps : Nat) : Nat × Nat × Nat :=
  if ShardInfoSlice.Less data b a then (b, a, swaps + 1) else (a, b, swaps)

/-- The function `median(data, a, b, c, swaps)`; returns the index and the
updated counter. -/
def median (data : ShardInfoSlice) (a b c swaps : Nat) : Nat × Nat :=
  let r1 := order2 data a b swaps
  let r2 := order2 data r1.2.1 c r1.2.2
  let r3 := order2 data r1.1 r2.1 r2.2.2
  (r3.2.1, r3.2.2)

/-- The function `medianAdjacent(data, a, swaps)`. -/
def medianAdjacent (data : ShardInfoSlice) (a swaps : Nat) : Nat × Nat :=
  median data (a - 1) a (a + 1) swaps

/-- The function `choosePivot(data, a, b)` with `shortestNinther = 50` and
`maxSwaps = 4 * 3`. -/
def choosePivot (data : ShardInfoSlice) (a b : Nat) : Nat × sortedHint :=
  let l := b - a
  let i := a + l / 4 * 1
  let j := a + l / 4 * 2
  let k := a + l / 4 * 3
  let r :=
    if l ≥ 8 then
      if l ≥ 50 then
        let ri := medianAdjacent data i 0
        let rj := medianAdjacent data j ri.2
        let rk := medianAdjacent data k rj.2
        median data ri.1 rj.1 rk.1 rk.2
      else median data i j k 0
    else (j, 0)
  if r.2 = 0 then (r.1, sortedHint.increasingHint)
  else if r.2 = 4 * 3 then (r.1, sortedHint.decreasingHint)
  else (r.1, sortedHint.unknownHint)

/-- The loop of `reverseRange`: `for i < j { data.Swap(i, j); i++; j-- }`. -/
def reverseLoop : Nat → ShardInfoSlice → Nat → Nat → ShardInfoSlice
  | 0, data, _, _ => data
  | n + 1, data, i, j =>
    if i < j then reverseLoop n (ShardInfoSlice.Swap data i j) (i + 1) (j - 1) else data

/-- The function `reverseRange(data, a, b)`. -/
def reverseRange (data : ShardInfoSlice) (a b : Nat) : ShardInfoSlice :=
  reverseLoop (b - a) data a (b - 1)

/-- The function `pdqsort(data, a, b, limit)` from the head of its loop, with the
loop variables `wasBalanced` and `wasPartitioned`; `fuel` bounds the number
of rounds and the depth of the calls (`b - a` shrinks each time). -/
def pdqsort : Nat → ShardInfoSlice → Nat → Nat → Nat → Bool → Bool → ShardInfoSlice
  | 0, data, _, _, _, _, _ => data
  | fuel + 1, data, a, b, limit, wasBalanced, wasPartitioned =>
    let length := b - a
    if length ≤ 12 then insertionSort data a b
    else if limit = 0 then heapSort data a b
    else
      let data1 := if !wasBalanced then breakPatterns data a b else data
      let limit1 := if !wasBalanced then limit - 1 else limit
      let ph := choosePivot data1 a b
      let data2 := if ph.2 = sortedHint.decreasingHint then reverseRange data1 a b else data1
      let pivot := if ph.2 = sortedHint.decreasingHint then (b - 1) - (ph.1 - a) else ph.1
      let hint := if ph.2 = sortedHint.decreasingHint then sortedHint.increasingHint else ph.2
      let pis :=
        if wasBalanced && wasPartitioned && decide (hint = sortedHint.increasingHint) then
          partialInsertionSort data2 a b
        else (data2, false)
      if pis.2 then pis.1
      else if 0 < a && !ShardInfoSlice.Less pis.1 (a - 1) pivot then
        let pe := partitionEqual pis.1 a b pivot
        pdqsort fuel pe.1 pe.2 b limit1 wasBalanced wasPartitioned
      else
        let r := partition pis.1 a b pivot
        let mid := r.2.1
        if mid - a < b - mid then
          pdqsort fuel (pdqsort fuel r.1 a mid limit1 true true) (mid + 1) b limit1
            (decide (mid - a ≥ length / 8)) r.2.2
        else
          pdqsort fuel (pdqsort fuel r.1 (mid + 1) b limit1 true true) a mid limit1
            (decide (b - mid ≥ length / 8)) r.2.2

/-- The function `sort.Sort(data)` on a `ShardInfoSlice`. -/
def sortSort (data : ShardInfoSlice) : ShardInfoSlice :=
  let n := ShardInfoSlice.Len data
  if n ≤ 1 then data else pdqsort n data 0 n (bitsLen n n) true true

/-! ## Reading slices -/

/-- The round-trip time at position `i` of a slice (`0` beyond its end). -/
def key (s : ShardInfoSlice) (i : Nat) : ℚ :=
  match s[i]? with
  | some x => x.RTT
  | none => 0

/-- The positions `a ≤ i < b` of a slice are in non-decreasing order of `RTT`. -/
def SortedOn (s : ShardInfoSlice) (a b : Nat) : Prop :=
  ∀ i j, a ≤ i → i < j → j < b → key s i ≤ key s j

/-- The slice `t` is `s` with the positions `a ≤ i < b` rearranged among
themselves: same length, same shards, nothing moved outside the range, and
every shard in the range comes from the range. -/
def Frame (s t : ShardInfoSlice) (a b : Nat) : Prop :=
  t.length = s.length ∧ t.Perm s ∧ (∀ k, k < a ∨ b ≤ k → t[k]? = s[k]?) ∧
    (∀ k, a ≤ k → k < b → ∃ m, a ≤ m ∧ m < b ∧ t[k]? = s[m]?)

/-- The shards of a slice whose round-trip time is `r`, in slice order. -/
def withRTT (r : ℚ) (s : ShardInfoSlice) : ShardInfoSlice :=
  s.filter (fun x => decide (x.RTT = r))

/-- When the range `a ≤ i < b` does not start the slice, the shard just before
it is not later in order than any shard of the range. -/
def LowerBound (s : ShardInfoSlice) (a b : Nat) : Prop :=
  0 < a → ∀ k, a ≤ k → k < b → key s (a - 1) ≤ key s k

/-- The heap order of `siftDown` on the positions `first + lo ≤ i < first + hi`:
no child is later in order than its parent, for every parent from `lo` on. -/
def HeapFrom (d : ShardInfoSlice) (first lo hi : Nat) : Prop :=
  ∀ r c, lo ≤ r → (c = 2 * r + 1 ∨ c = 2 * r + 2) → c < hi →
    key d (first + c) ≤ key d (first + r)

/-! ## `UpdateShards` -/

/-- The method `Client.UpdateShards`. -/
def UpdateShards (env : Env) (c : Client) : Outcome (List ShardInfo × Client) :=
  if !c.connected then Outcome.ret ([], c) []
  else
    let shards := env.getShards.getD []
    match updateRTTs env shards with
    | Outcome.fatal tr => Outcome.fatal (Event.zGetShards :: tr)
    | Outcome.ret shards tr =>
      let shards := sortSort shards
      Outcome.ret (shards, { c with shards := shards }) (Event.zGetShards :: tr)

/-! ## `newLink` and `RequestRelay` -/

/-- The method `Client.newLink`. -/
def newLink (env : Env) (c : Client) (shard : ShardInfo) (hostAddr transport : String) :
    Outcome Client :=
  let stop := match c.link with
    | some l => [Event.linkStop l.id]
    | none => []
  match env.resolve hostAddr with
  | none => Outcome.fatal stop
  | some addr =>
    if transport = "udp" then
      let shardAddr := env.resolve shard.Addr
      let warn := if shardAddr.isNone then [Event.warn] else []
      let l : UDPLink := { id := c.allocs, shardAddr := shardAddr, hostAddr := addr }
      Outcome.ret { c with link := some l, allocs := c.allocs + 1 }
        (stop ++ warn ++ [Event.linkStart l.id])
    else Outcome.ret c stop

/-- The test `strings.Contains(s, substr)`. -/
def stringsContains (s substr : String) : Bool :=
  decide (substr.data <:+: s.data)

/-- The method `Client.RequestRelay`. -/
def RequestRelay (env : Env) (c : Client) (shardAddr transport : String) :
    Outcome ((String × String) × Client) :=
  if !c.connected then Outcome.ret (("ERROR_UNCONNECTED", "ERROR_UNCONNECTED"), c) []
  else
    match findShardByAddr c shardAddr with
    | none => Outcome.ret (("ERROR_SHARD_NOT_FOUND", "ERROR_SHARD_NOT_FOUND"), c) []
    | some shard =>
      let r := env.shardRelay shard.Addr transport
      let hostAddr := r.1
      let guestAddr := r.2
      if !stringsContains hostAddr "ERROR" && !stringsContains guestAddr "ERROR" then
        match newLink env c shard hostAddr transport with
        | Outcome.fatal tr => Outcome.fatal (Event.zShardRelay shard.Addr transport :: tr)
        | Outcome.ret c' tr =>
          Outcome.ret ((hostAddr, guestAddr), c') (Event.zShardRelay shard.Addr transport :: tr)
      else
        Outcome.ret ((hostAddr, guestAddr), c) [Event.zShardRelay shard.Addr transport]

/-! ## Reading traces -/

/-- The links that are started and not yet stopped after one more event. -/
def stepRunning (live : List Nat) : Event → List Nat
  | Event.linkStart i => i :: live
  | Event.linkStop i => live.erase i
  | _ => live

/-- At every point of the trace, beginning with the links `live`, at most one
link is started and not yet stopped. -/
def atMostOneRunning : List Nat → List Event → Bool
  | live, [] => decide (live.length ≤ 1)
  | live, e :: tr => decide (live.length ≤ 1) && atMostOneRunning (stepRunning live e) tr

/-- The links that are started and not yet stopped at the end of a trace. -/
def runningAfter (live : List Nat) (tr : List Event) : List Nat :=
  tr.foldl stepRunning live

/-- The identities of the links a client holds as running. -/
def liveLinks (c : Client) : List Nat :=
  match c.link with
  | some l => [l.id]
  | none => []

/-- The arithmetic mean of elapsed nanoseconds, in milliseconds, over exact
arithmetic: `(v_1 + ... + v_n) / 10^6 / n`. -/
def meanMillis (rtts : List Nat) : ℚ :=
  (rtts.sum : ℚ) / 1000000 / (rtts.length : ℚ)

/-- The instant of the last receive in `WaitLoop` entered at `t` (`t` itself
when nothing is received). -/
def lastReceive : Nat → List Reply → Nat
  | t, [] => t
  | t, r :: rest => if r.arrival < t + second then lastReceive (max t r.arrival) rest else t

/-- The number of pairs received in `WaitLoop` entered at `t`. -/
def numReceived : Nat → List Reply → Nat
  | _, [] => 0
  | t, r :: rest =>
    if r.arrival < t + second then numReceived (max t r.arrival) rest + 1 else 0

/-! ## Concrete inputs used to run the definitions -/

/-- A resolver that knows two hosts and two shards and fails on anything else. -/
def sampleResolve (s : String) : Option UDPAddr :=
  if s = "host1:7000" then some { IP := "10.0.0.1", Port := 7000 }
  else if s = "host2:7000" then some { IP := "10.0.0.2", Port := 7000 }
  else if s = "10.1.0.1:31337" then some { IP := "10.1.0.1", Port := 31337 }
  else if s = "10.1.0.2:31337" then some { IP := "10.1.0.2", Port := 31337 }
  else none

/-- An environment with no shards listed, no replies and a negotiation that
always answers with `host1:7000` and `guest1:7000`. -/
def sampleEnv : Env where
  getShards := none
  shardRelay := fun _ _ => ("host1:7000", "guest1:7000")
  resolve := sampleResolve
  listenOk := true
  start := 0
  replies := []

/-- An environment whose negotiation answers with a host address that carries no
error marker and does not resolve. -/
def badHostEnv : Env where
  getShards := none
  shardRelay := fun _ _ => ("nowhere", "guest1:7000")
  resolve := sampleResolve
  listenOk := true
  start := 0
  replies := []

/-- An environment in which shard `A` answers twice within the window, each time
with a timestamp one nanosecond ahead of the local clock. -/
def wrapEnv : Env where
  getShards := none
  shardRelay := fun _ _ => ("host1:7000", "guest1:7000")
  resolve := sampleResolve
  listenOk := true
  start := 0
  replies := [{ arrival := 1000, key := "10.1.0.1:31337", now := 5, sent := 6 },
    { arrival := 2000, key := "10.1.0.1:31337", now := 5, sent := 6 }]

/-- An environment in which the collaborator lists shards `A` and `B`, and `A`
answers once after 10 ms and `B` once after 5 ms. -/
def rankEnv : Env where
  getShards := some [{ Addr := "10.1.0.1:31337", RTT := 0 }, { Addr := "10.1.0.2:31337", RTT := 0 }]
  shardRelay := fun _ _ => ("host1:7000", "guest1:7000")
  resolve := sampleResolve
  listenOk := true
  start := 0
  replies := [{ arrival := 5000000, key := "10.1.0.2:31337", now := 5000000, sent := 0 },
    { arrival := 10000000, key := "10.1.0.1:31337", now := 10000000, sent := 0 }]

/-- Thirteen shards: twelve with a round-trip time of 1 ms, then one with 0 ms. -/
def thirteenShards : ShardInfoSlice :=
  [{ Addr := "10.2.0.1:31337", RTT := 1 }, { Addr := "10.2.0.2:31337", RTT := 1 },
    { Addr := "10.2.0.3:31337", RTT := 1 }, { Addr := "10.2.0.4:31337", RTT := 1 },
    { Addr := "10.2.0.5:31337", RTT := 1 }, { Addr := "10.2.0.6:31337", RTT := 1 },
    { Addr := "10.2.0.7:31337", RTT := 1 }, { Addr := "10.2.0.8:31337", RTT := 1 },
    { Addr := "10.2.0.9:31337", RTT := 1 }, { Addr := "10.2.0.10:31337", RTT := 1 },
    { Addr := "10.2.0.11:31337", RTT := 1 }, { Addr := "10.2.0.12:31337", RTT := 1 },
    { Addr := "10.2.0.13:31337", RTT := 0 }]

/-- An environment in which the collaborator lists the thirteen shards and
nobody answers. -/
def thirteenEnv : Env where
  getShards := some thirteenShards
  shardRelay := fun _ _ => ("host1:7000", "guest1:7000")
  resolve := sampleResolve
  listenOk := true
  start := 0
  replies := []

/-- Two shards with the same round-trip time. -/
def tiedShards : ShardInfoSlice :=
  [{ Addr := "10.1.0.1:31337", RTT := 7 }, { Addr := "10.1.0.2:31337", RTT := 7 }]

/-- A single reply, ready half a second after the window began. -/
def lateReply : Reply :=
  { arrival := 500000000, key := "10.1.0.1:31337", now := 500000000, sent := 0 }

/-- Shard `A`. -/
def shardA : ShardInfo := { Addr := "10.1.0.1:31337", RTT := 0 }

/-- Shard `B`. -/
def shardB : ShardInfo := { Addr := "10.1.0.2:31337", RTT := 0 }

/-- A client that is not connected and holds no link. -/
def offlineClient : Client :=
  { connected := false, shards := [shardA, shardB], link := none, allocs := 0 }

/-- A connected client that knows shards `A` and `B` and holds no link. -/
def idleClient : Client :=
  { connected := true, shards := [shardA, shardB], link := none, allocs := 0 }

/-- A connected client with a running link, the first one ever allocated. -/
def activeClient : Client :=
  { connected := true, shards := [shardA, shardB],
    link := some { id := 0, shardAddr := none, hostAddr := { IP := "10.0.0.9", Port := 7000 } },
    allocs := 1 }

/-! ## The connected gate -/

/-- C1: on a client that is not connected, `RequestRelay` returns the pair
`("ERROR_UNCONNECTED", "ERROR_UNCONNECTED")` and `UpdateShards` returns the
empty list; both leave the client state (directory and link included) as it was
and make no call at all: the trace is empty, so there is no `zGetShards`, no
`zShardRelay` and no `net.ListenPacket`. -/
theorem disconnected_fails_closed (env : Env) (c : Client) (shardAddr transport : String)
    (h : c.connected = false) :
    RequestRelay env c shardAddr transport
        = Outcome.ret (("ERROR_UNCONNECTED", "ERROR_UNCONNECTED"), c) [] ∧
      UpdateShards env c = Outcome.ret ([], c) [] := by
  constructor
  · simp [RequestRelay, h]
  · simp [UpdateShards, h]

/-- The claim C1 run on the offline client. -/
theorem disconnected_fails_closed_witness :
    offlineClient.connected = false ∧
      RequestRelay sampleEnv offlineClient "10.1.0.1:31337" "udp"
        = Outcome.ret (("ERROR_UNCONNECTED", "ERROR_UNCONNECTED"), offlineClient) [] ∧
      UpdateShards sampleEnv offlineClient = Outcome.ret ([], offlineClient) [] :=
  ⟨rfl, disconnected_fails_closed sampleEnv offlineClient "10.1.0.1:31337" "udp" rfl⟩

/-! ## Lookup by address -/

theorem findShard_eq_none_iff (addr : String) (l : List ShardInfo) :
    findShard addr l = none ↔ ∀ s ∈ l, s.Addr ≠ addr := by
  induction l with
  | nil => simp [findShard]
  | cons x xs ih =>
    by_cases hx : x.Addr = addr
    · simp [findShard, hx]
    · simp [findShard, hx, ih]

theorem findShard_eq_some_iff (addr : String) (l : List ShardInfo) (s : ShardInfo) :
    findShard addr l = some s ↔
      ∃ pre post, l = pre ++ s :: post ∧ s.Addr = addr ∧ ∀ x ∈ pre, x.Addr ≠ addr := by
  induction l with
  | nil => simp [findShard]
  | cons x xs ih =>
    by_cases hx : x.Addr = addr
    · simp only [findShard, hx, if_true, Option.some.injEq]
      constructor
      · rintro rfl
        exact ⟨[], xs, rfl, hx, by simp⟩
      · rintro ⟨pre, post, hl, hs, hpre⟩
        cases pre with
        | nil =>
          simp only [List.nil_append, List.cons.injEq] at hl
          exact hl.1
        | cons p ps =>
          simp only [List.cons_append, List.cons.injEq] at hl
          exact absurd (hl.1 ▸ hx) (hpre p (List.mem_cons_self _ _))
    · simp only [findShard, hx, if_false, ih]
      constructor
      · rintro ⟨pre, post, hl, hs, hpre⟩
        refine ⟨x :: pre, post, by simp [hl], hs, ?_⟩
        intro y hy
        rcases List.mem_cons.1 hy with rfl | hy
        · exact hx
        · exact hpre y hy
      · rintro ⟨pre, post, hl, hs, hpre⟩
        cases pre with
        | nil =>
          simp only [List.nil_append, List.cons.injEq] at hl
          exact absurd (hl.1 ▸ hs) hx
        | cons p ps =>
          simp only [List.cons_append, List.cons.injEq] at hl
          exact ⟨ps, post, hl.2, hs, fun y hy => hpre y (List.mem_cons_of_mem _ hy)⟩

/-- C2: on a connected client, when no shard of the stored directory has `Addr`
equal to `shardAddr`, `RequestRelay` returns
`("ERROR_SHARD_NOT_FOUND", "ERROR_SHARD_NOT_FOUND")` with an empty trace (no
`zShardRelay`) and an unchanged client (link included); `findShardByAddr` gives
nil exactly when no shard has that address, and otherwise gives the first shard
in directory order that has it. -/
theorem requestRelay_shard_not_found (env : Env) (c : Client) (shardAddr transport : String)
    (hc : c.connected = true) :
    ((∀ s ∈ c.shards, s.Addr ≠ shardAddr) →
        RequestRelay env c shardAddr transport
          = Outcome.ret (("ERROR_SHARD_NOT_FOUND", "ERROR_SHARD_NOT_FOUND"), c) []) ∧
      (findShardByAddr c shardAddr = none ↔ ∀ s ∈ c.shards, s.Addr ≠ shardAddr) ∧
      (∀ s, findShardByAddr c shardAddr = some s ↔
        ∃ pre post, c.shards = pre ++ s :: post ∧ s.Addr = shardAddr ∧
          ∀ x ∈ pre, x.Addr ≠ shardAddr) := by
  refine ⟨?_, findShard_eq_none_iff shardAddr c.shards,
    fun s => findShard_eq_some_iff shardAddr c.shards s⟩
  intro habs
  have hnone : findShardByAddr c shardAddr = none :=
    (findShard_eq_none_iff shardAddr c.shards).2 habs
  simp [RequestRelay, hc, hnone]

/-- The claim C2 run on the idle client and an address that is not in its directory. -/
theorem requestRelay_shard_not_found_witness :
    idleClient.connected = true ∧ (∀ s ∈ idleClient.shards, s.Addr ≠ "10.9.9.9:1") ∧
      RequestRelay sampleEnv idleClient "10.9.9.9:1" "udp"
        = Outcome.ret (("ERROR_SHARD_NOT_FOUND", "ERROR_SHARD_NOT_FOUND"), idleClient) [] :=
  ⟨rfl, by decide,
    (requestRelay_shard_not_found sampleEnv idleClient "10.9.9.9:1" "udp" rfl).1 (by decide)⟩

/-! ## Link supervision -/

/-- What `newLink` does with transport `"udp"` and a host address that resolves. -/
theorem newLink_udp (env : Env) (c : Client) (shard : ShardInfo) (hostAddr : String)
    (addr : UDPAddr) (hr : env.resolve hostAddr = some addr) :
    newLink env c shard hostAddr "udp"
      = Outcome.ret
          (Client.mk c.connected c.shards (some ⟨c.allocs, env.resolve shard.Addr, addr⟩)
            (c.allocs + 1))
          ((match c.link with
            | some l => [Event.linkStop l.id]
            | none => []) ++ (if (env.resolve shard.Addr).isNone then [Event.warn] else [])
              ++ [Event.linkStart c.allocs]) := by
  simp only [newLink, hr, if_true]

/-- C3: two successive `newLink` calls with transport `"udp"` and resolvable host
addresses, from any client state: both return; the first link's `Stop` comes in
the joint trace before the second link's `Start` (which is the last event and
occurs nowhere earlier); afterwards the client holds one link, it targets the
second host, and it is the only link started and not stopped; at every point of
the trace at most one link is started and not yet stopped. -/
theorem newLink_twice_one_link (env1 env2 : Env) (c : Client) (shardX shardY : ShardInfo)
    (host1 host2 : String) (a1 a2 : UDPAddr)
    (h1 : env1.resolve host1 = some a1) (h2 : env2.resolve host2 = some a2) :
    ∃ c1 tr1 c2 tr2 l1 l2,
      newLink env1 c shardX host1 "udp" = Outcome.ret c1 tr1 ∧
      newLink env2 c1 shardY host2 "udp" = Outcome.ret c2 tr2 ∧
      c1.link = some l1 ∧ l1.hostAddr = a1 ∧ Event.linkStart l1.id ∈ tr1 ∧
      c2.link = some l2 ∧ l2.hostAddr = a2 ∧ l2.shardAddr = env2.resolve shardY.Addr ∧
      l1.id ≠ l2.id ∧
      (∃ pre mid, tr1 ++ tr2 = pre ++ Event.linkStop l1.id :: mid ++ [Event.linkStart l2.id] ∧
        Event.linkStart l2.id ∉ pre ∧ Event.linkStart l2.id ∉ mid) ∧
      atMostOneRunning (liveLinks c) (tr1 ++ tr2) = true ∧
      runningAfter (liveLinks c) (tr1 ++ tr2) = [l2.id] := by
  refine ⟨_, _, _, _, ⟨c.allocs, env1.resolve shardX.Addr, a1⟩,
    ⟨c.allocs + 1, env2.resolve shardY.Addr, a2⟩,
    newLink_udp env1 c shardX host1 a1 h1, newLink_udp env2 _ shardY host2 a2 h2,
    rfl, rfl, ?_, rfl, rfl, rfl, ?_, ?_, ?_, ?_⟩
  · simp
  · simp
  · refine ⟨(match c.link with
        | some l => [Event.linkStop l.id]
        | none => []) ++ (if (env1.resolve shardX.Addr).isNone then [Event.warn] else [])
          ++ [Event.linkStart c.allocs],
      if (env2.resolve shardY.Addr).isNone then [Event.warn] else [], ?_, ?_, ?_⟩
    · simp
    · obtain ⟨conn, sh, link, al⟩ := c
      cases link <;> cases env1.resolve shardX.Addr <;> simp
    · cases env2.resolve shardY.Addr <;> simp
  · obtain ⟨conn, sh, link, al⟩ := c
    cases link <;> cases env1.resolve shardX.Addr <;> cases env2.resolve shardY.Addr <;>
      simp [atMostOneRunning, stepRunning, liveLinks]
  · obtain ⟨conn, sh, link, al⟩ := c
    cases link <;> cases env1.resolve shardX.Addr <;> cases env2.resolve shardY.Addr <;>
      simp [runningAfter, stepRunning, liveLinks]

/-- The claim C3 run from the client with a running link: `host1` then `host2`. -/
theorem newLink_twice_one_link_witness :
    sampleEnv.resolve "host1:7000" = some { IP := "10.0.0.1", Port := 7000 } ∧
      sampleEnv.resolve "host2:7000" = some { IP := "10.0.0.2", Port := 7000 } ∧
      ∃ c1 tr1 c2 tr2 l1 l2,
        newLink sampleEnv activeClient shardA "host1:7000" "udp" = Outcome.ret c1 tr1 ∧
        newLink sampleEnv c1 shardB "host2:7000" "udp" = Outcome.ret c2 tr2 ∧
        c1.link = some l1 ∧ l1.hostAddr = { IP := "10.0.0.1", Port := 7000 } ∧
        Event.linkStart l1.id ∈ tr1 ∧
        c2.link = some l2 ∧ l2.hostAddr = { IP := "10.0.0.2", Port := 7000 } ∧
        l2.shardAddr = sampleEnv.resolve shardB.Addr ∧
        l1.id ≠ l2.id ∧
        (∃ pre mid,
          tr1 ++ tr2 = pre ++ Event.linkStop l1.id :: mid ++ [Event.linkStart l2.id] ∧
          Event.linkStart l2.id ∉ pre ∧ Event.linkStart l2.id ∉ mid) ∧
        atMostOneRunning (liveLinks activeClient) (tr1 ++ tr2) = true ∧
        runningAfter (liveLinks activeClient) (tr1 ++ tr2) = [l2.id] :=
  ⟨rfl, rfl,
    newLink_twice_one_link sampleEnv sampleEnv activeClient shardA shardB "host1:7000"
      "host2:7000" _ _ rfl rfl⟩

/-- C4 fails as stated: with transport `"tcp"` on a client whose link is running,
`newLink` calls `Stop` on that link, so the call is not a no-op. -/
theorem newLink_other_transport_not_noop :
    newLink sampleEnv activeClient shardA "host1:7000" "tcp"
        = Outcome.ret activeClient [Event.linkStop 0] ∧
      newLink sampleEnv activeClient shardA "host1:7000" "tcp" ≠ Outcome.ret activeClient [] ∧
      runningAfter (liveLinks activeClient) [Event.linkStop 0] = [] := by
  decide

/-- C4 as amended: with a resolvable host address and a transport other than
`"udp"`, `newLink` returns with the client state unchanged (the link field
included) and never calls `Start`; it calls `Stop` once on the link the client
holds, if there is one, so no link is running afterwards; on a client without
a link it makes no call at all. -/
theorem newLink_other_transport (env : Env) (c : Client) (shard : ShardInfo)
    (hostAddr transport : String) (addr : UDPAddr)
    (hr : env.resolve hostAddr = some addr) (ht : transport ≠ "udp") :
    ∃ tr, newLink env c shard hostAddr transport = Outcome.ret c tr ∧
      (tr = match c.link with
        | some l => [Event.linkStop l.id]
        | none => []) ∧
      (∀ i, Event.linkStart i ∉ tr) ∧
      (c.link = none → tr = []) ∧
      runningAfter (liveLinks c) tr = [] := by
  refine ⟨_, ?_, rfl, ?_, ?_, ?_⟩
  · simp only [newLink, hr, ht, if_false]
  · obtain ⟨conn, sh, link, al⟩ := c
    cases link <;> simp
  · intro hl
    simp [hl]
  · obtain ⟨conn, sh, link, al⟩ := c
    cases link <;> simp [runningAfter, stepRunning, liveLinks]

/-- The amended claim C4 run on the client with a running link and transport `"tcp"`. -/
theorem newLink_other_transport_witness :
    sampleEnv.resolve "host1:7000" = some { IP := "10.0.0.1", Port := 7000 } ∧ "tcp" ≠ "udp" ∧
      ∃ tr, newLink sampleEnv activeClient shardA "host1:7000" "tcp"
          = Outcome.ret activeClient tr ∧
        (tr = match activeClient.link with
          | some l => [Event.linkStop l.id]
          | none => []) ∧
        (∀ i, Event.linkStart i ∉ tr) ∧
        (activeClient.link = none → tr = []) ∧
        runningAfter (liveLinks activeClient) tr = [] :=
  ⟨rfl, by decide,
    newLink_other_transport sampleEnv activeClient shardA "host1:7000" "tcp" _ rfl (by decide)⟩

/-! ## Relay negotiation -/

/-- C9 fails as stated: the negotiation answers `("nowhere", "guest1:7000")`,
neither string contains `"ERROR"`, the shard is in the directory of a connected
client, and `RequestRelay` does not return the pair: `newLink` cannot resolve
the host address and `logger.Fatal` ends the process. -/
theorem requestRelay_unresolvable_host_fatal :
    idleClient.connected = true ∧
      findShardByAddr idleClient "10.1.0.1:31337" = some shardA ∧
      badHostEnv.shardRelay shardA.Addr "udp" = ("nowhere", "guest1:7000") ∧
      stringsContains "nowhere" "ERROR" = false ∧
      stringsContains "guest1:7000" "ERROR" = false ∧
      RequestRelay badHostEnv idleClient "10.1.0.1:31337" "udp"
        = Outcome.fatal [Event.zShardRelay "10.1.0.1:31337" "udp"] := by
  decide

/-- C9 as amended: on a connected client with `shardAddr` found in the directory
and `(h, g)` the answer of the negotiation for the found shard: if `h` or `g`
contains `"ERROR"`, `RequestRelay` returns exactly `(h, g)`, the client state is
unchanged and the only call is the negotiation (no `Stop`, no `Start`); if
neither contains `"ERROR"`, `newLink` runs on the found shard, `h` and the
transport, and `RequestRelay` returns exactly `(h, g)` with the state and trace
`newLink` leaves when `h` resolves; when `h` does not resolve, `newLink` calls
`Stop` on the link the client holds, if there is one, and then ends the
process, so the trace is the negotiation followed by that `Stop` and there is
no return. -/
theorem requestRelay_negotiated (env : Env) (c : Client) (shardAddr transport : String)
    (shard : ShardInfo) (hc : c.connected = true)
    (hf : findShardByAddr c shardAddr = some shard) :
    ((stringsContains (env.shardRelay shard.Addr transport).1 "ERROR" = true ∨
        stringsContains (env.shardRelay shard.Addr transport).2 "ERROR" = true) →
      RequestRelay env c shardAddr transport
        = Outcome.ret (env.shardRelay shard.Addr transport, c)
            [Event.zShardRelay shard.Addr transport]) ∧
    ((stringsContains (env.shardRelay shard.Addr transport).1 "ERROR" = false ∧
        stringsContains (env.shardRelay shard.Addr transport).2 "ERROR" = false) →
      (∀ addr, env.resolve (env.shardRelay shard.Addr transport).1 = some addr →
        ∃ c1 tr, newLink env c shard (env.shardRelay shard.Addr transport).1 transport
            = Outcome.ret c1 tr ∧
          RequestRelay env c shardAddr transport
            = Outcome.ret (env.shardRelay shard.Addr transport, c1)
                (Event.zShardRelay shard.Addr transport :: tr)) ∧
      (env.resolve (env.shardRelay shard.Addr transport).1 = none →
        newLink env c shard (env.shardRelay shard.Addr transport).1 transport
            = Outcome.fatal (match c.link with
              | some l => [Event.linkStop l.id]
              | none => []) ∧
          RequestRelay env c shardAddr transport
            = Outcome.fatal (Event.zShardRelay shard.Addr transport ::
                (match c.link with
                  | some l => [Event.linkStop l.id]
                  | none => [])))) := by
  refine ⟨?_, ?_⟩
  · intro herr
    rcases herr with herr | herr <;> simp [RequestRelay, hc, hf, herr]
  · rintro ⟨hh, hg⟩
    refine ⟨?_, ?_⟩
    · intro addr hr
      by_cases ht : transport = "udp"
      · subst ht
        exact ⟨_, _, newLink_udp env c shard _ addr hr, by
          simp [RequestRelay, hc, hf, hh, hg, newLink_udp env c shard _ addr hr]⟩
      · have hn : newLink env c shard (env.shardRelay shard.Addr transport).1 transport
            = Outcome.ret c (match c.link with
              | some l => [Event.linkStop l.id]
              | none => []) := by
          simp only [newLink, hr, ht, if_false]
        exact ⟨_, _, hn, by simp [RequestRelay, hc, hf, hh, hg, hn]⟩
    · intro hr
      have hn : newLink env c shard (env.shardRelay shard.Addr transport).1 transport
          = Outcome.fatal (match c.link with
            | some l => [Event.linkStop l.id]
            | none => []) := by
        simp only [newLink, hr]
      exact ⟨hn, by simp [RequestRelay, hc, hf, hh, hg, hn]⟩

/-- The amended claim C9 run on shard `A` and transport `"udp"`: on the idle
client the negotiated host resolves and the link is started; on the client
with a running link and a negotiated host that does not resolve, the link is
stopped and the process ends. -/
theorem requestRelay_negotiated_witness :
    idleClient.connected = true ∧
      findShardByAddr idleClient "10.1.0.1:31337" = some shardA ∧
      (stringsContains (sampleEnv.shardRelay shardA.Addr "udp").1 "ERROR" = false ∧
        stringsContains (sampleEnv.shardRelay shardA.Addr "udp").2 "ERROR" = false) ∧
      sampleEnv.resolve (sampleEnv.shardRelay shardA.Addr "udp").1
        = some { IP := "10.0.0.1", Port := 7000 } ∧
      (∃ c1 tr, newLink sampleEnv idleClient shardA (sampleEnv.shardRelay shardA.Addr "udp").1 "udp"
          = Outcome.ret c1 tr ∧
        RequestRelay sampleEnv idleClient "10.1.0.1:31337" "udp"
          = Outcome.ret (sampleEnv.shardRelay shardA.Addr "udp", c1)
              (Event.zShardRelay shardA.Addr "udp" :: tr)) ∧
      activeClient.connected = true ∧
      findShardByAddr activeClient "10.1.0.1:31337" = some shardA ∧
      badHostEnv.resolve (badHostEnv.shardRelay shardA.Addr "udp").1 = none ∧
      RequestRelay badHostEnv activeClient "10.1.0.1:31337" "udp"
        = Outcome.fatal [Event.zShardRelay "10.1.0.1:31337" "udp", Event.linkStop 0] :=
  ⟨rfl, by decide, by decide, rfl,
    ((requestRelay_negotiated sampleEnv idleClient "10.1.0.1:31337" "udp" shardA rfl
      (by decide)).2 (by decide)).1 _ rfl,
    rfl, by decide, by decide,
    (((requestRelay_negotiated badHostEnv activeClient "10.1.0.1:31337" "udp" shardA rfl
      (by decide)).2 (by decide)).2 (by decide)).2⟩

/-! ## Probing: the collection window -/

theorem waitLoop_exit (t : Nat) (replies : List Reply) (m : String → Option (List Nat)) :
    (waitLoop t replies m).2 = lastReceive t replies + second := by
  induction replies generalizing t m with
  | nil => simp [waitLoop, lastReceive]
  | cons r rest ih =>
    by_cases h : r.arrival < t + second
    · simp [waitLoop, lastReceive, h, ih]
    · simp [waitLoop, lastReceive, h]

theorem lastReceive_le (t : Nat) (replies : List Reply) :
    lastReceive t replies ≤ t + numReceived t replies * second := by
  induction replies generalizing t with
  | nil => simp [lastReceive, numReceived]
  | cons r rest ih =>
    by_cases h : r.arrival < t + second
    · simp only [lastReceive, numReceived, h, if_true]
      have := ih (max t r.arrival)
      have hm : max t r.arrival ≤ t + second := by
        rcases Nat.le_total t r.arrival with h1 | h1
        · rw [Nat.max_eq_right h1]; omega
        · rw [Nat.max_eq_left h1]; omega
      rw [Nat.add_mul]
      omega
    · simp [lastReceive, numReceived, h]

theorem numReceived_le (t : Nat) (replies : List Reply) :
    numReceived t replies ≤ replies.length := by
  induction replies generalizing t with
  | nil => simp [numReceived]
  | cons r rest ih =>
    by_cases h : r.arrival < t + second
    · simp only [numReceived, h, if_true, List.length_cons]
      have := ih (max t r.arrival)
      omega
    · simp [numReceived, h]

theorem le_lastReceive (t : Nat) (replies : List Reply) : t ≤ lastReceive t replies := by
  induction replies generalizing t with
  | nil => simp [lastReceive]
  | cons r rest ih =>
    by_cases h : r.arrival < t + second
    · simp only [lastReceive, h, if_true]
      exact le_trans (Nat.le_max_left _ _) (ih _)
    · simp [lastReceive, h]

/-- C10 fails as stated: one reply that is ready half a second after the window
began is received, the timeout starts again, and the loop is left 1.5 seconds
after the window began, later than the 1 second of the claim. -/
theorem waitLoop_timeout_restarts :
    (waitLoop 0 [lateReply] (fun _ => none)).2 = 1500000000 ∧
      ¬ (waitLoop 0 [lateReply] (fun _ => none)).2 ≤ 0 + second := by
  decide

/-- C10 as amended: the collection loop is left exactly one second after its
last receive (after the window began, when nothing is received): never before
one second has passed, exactly at one second when no reply is ready before
then, and with `k` replies received no later than `k + 1` seconds after the
window began, `k` being at most the number of replies; each receive starts the
timeout again. -/
theorem waitLoop_deadline (t : Nat) (replies : List Reply) (m : String → Option (List Nat)) :
    (waitLoop t replies m).2 = lastReceive t replies + second ∧
      t + second ≤ (waitLoop t replies m).2 ∧
      (waitLoop t replies m).2 ≤ t + (numReceived t replies + 1) * second ∧
      numReceived t replies ≤ replies.length ∧
      (numReceived t replies = 0 → (waitLoop t replies m).2 = t + second) ∧
      (∀ r rest, replies = r :: rest → r.arrival < t + second →
        (waitLoop t replies m).2 = (waitLoop (max t r.arrival) rest m).2) := by
  have hexit := waitLoop_exit t replies m
  have hle := lastReceive_le t replies
  have hge := le_lastReceive t replies
  refine ⟨hexit, by omega, ?_, numReceived_le t replies, ?_, ?_⟩
  · rw [hexit, Nat.add_mul]
    omega
  · intro h0
    rw [h0] at hle
    omega
  · intro r rest hr harr
    subst hr
    rw [waitLoop_exit, waitLoop_exit]
    simp [lastReceive, harr]

/-! ## Probing: aggregation -/

theorem foldl_u64 (l : List Nat) (a : Nat) :
    l.foldl (fun sum v => u64 (sum + v)) (u64 a) = u64 (a + l.sum) := by
  induction l generalizing a with
  | nil => simp [u64]
  | cons v l ih =>
    simp only [List.foldl_cons, List.sum_cons]
    rw [ih]
    simp only [u64]
    omega

theorem sumRTTs_eq (rtts : List Nat) : sumRTTs rtts = rtts.sum % 2 ^ 64 := by
  have h := foldl_u64 rtts 0
  simpa [sumRTTs, u64] using h

theorem waitLoop_samples (t : Nat) (replies : List Reply) (m : String → Option (List Nat))
    (hm : ∀ k l, m k = some l → l ≠ [] ∧ ∀ v ∈ l, v < 2 ^ 64) :
    ∀ k l, (waitLoop t replies m).1 k = some l → l ≠ [] ∧ ∀ v ∈ l, v < 2 ^ 64 := by
  induction replies generalizing t m with
  | nil => simpa [waitLoop] using hm
  | cons r rest ih =>
    by_cases h : r.arrival < t + second
    · simp only [waitLoop, h, if_true]
      apply ih
      intro k l hk
      by_cases hkey : k = (pairOf r).key
      · simp only [addSample, hkey, if_true, Option.some.injEq] at hk
        subst hk
        refine ⟨by simp, ?_⟩
        intro v hv
        rcases List.mem_append.1 hv with hv | hv
        · cases hmk : m (pairOf r).key with
          | none => simp [hmk] at hv
          | some l0 =>
            simp only [hmk, Option.getD_some] at hv
            exact (hm _ _ hmk).2 v hv
        · simp only [List.mem_singleton] at hv
          subst hv
          simp only [pairOf, u64]
          exact Nat.mod_lt _ (by norm_num)
      · simp only [addSample, hkey, if_false] at hk
        exact hm k l hk
    · simpa [waitLoop, h] using hm

theorem collected_samples (env : Env) (k : String) (l : List Nat)
    (h : collected env k = some l) : l ≠ [] ∧ ∀ v ∈ l, v < 2 ^ 64 :=
  waitLoop_samples env.start env.replies (fun _ => none) (by simp) k l h

theorem updateRTTs_ret (env : Env) (shards : List ShardInfo) (hl : env.listenOk = true) :
    updateRTTs env shards
      = Outcome.ret (shards.map (setRTT (collected env)))
          (Event.listenPacket :: sendProbes env.resolve shards ++ [Event.closeSocket]) := by
  simp only [updateRTTs, hl, if_true]

/-- C7 fails as stated: shard `A` has two samples of `2^64 - 1` nanoseconds (the
timestamp in each reply is one nanosecond ahead of the local clock); their sum
wraps around in `uint64`, and the round-trip time set by `updateRTTs` is
`(2^64 - 2) / 10^6 / 2`, not the mean `(2^64 - 1) / 10^6`. -/
theorem updateRTTs_sum_wraps :
    collected wrapEnv shardA.Addr = some [18446744073709551615, 18446744073709551615] ∧
      sumRTTs [18446744073709551615, 18446744073709551615] = 18446744073709551614 ∧
      ∃ s tr, updateRTTs wrapEnv [shardA] = Outcome.ret [s] tr ∧
        s.RTT = 9223372036854775807 / 1000000 ∧
        meanMillis [18446744073709551615, 18446744073709551615]
          = 18446744073709551615 / 1000000 ∧
        s.RTT ≠ meanMillis [18446744073709551615, 18446744073709551615] := by
  have hc : collected wrapEnv shardA.Addr
      = some [18446744073709551615, 18446744073709551615] := by decide
  have hsum : sumRTTs [18446744073709551615, 18446744073709551615]
      = 18446744073709551614 := by decide
  refine ⟨hc, hsum, setRTT (collected wrapEnv) shardA, _, updateRTTs_ret wrapEnv [shardA] rfl,
    ?_, ?_, ?_⟩
  · simp only [setRTT, hc, hsum]
    norm_num
  · norm_num [meanMillis]
  · simp only [setRTT, hc, hsum]
    norm_num [meanMillis]

/-- C7 as amended: when the probing socket opens, `updateRTTs` returns, and every
shard whose `Addr` is a key of the collected map, with samples `v_1..v_n`, has
`n ≥ 1`, every `v_i < 2^64`, and afterwards
`RTT = ((v_1 + ... + v_n) mod 2^64) / 10^6 / n`: the sum is kept in a `uint64`
and wraps around. The round-trip time is the arithmetic mean in milliseconds
whenever `v_1 + ... + v_n < 2^64`. -/
theorem updateRTTs_rtt_of_samples (env : Env) (shards : List ShardInfo)
    (hl : env.listenOk = true) :
    ∃ shards' tr, updateRTTs env shards = Outcome.ret shards' tr ∧
      ∀ (i : Nat) (hi : i < shards.length) (rtts : List Nat),
        collected env shards[i].Addr = some rtts →
        ∃ s, shards'[i]? = some s ∧ rtts ≠ [] ∧ (∀ v ∈ rtts, v < 2 ^ 64) ∧
          s.RTT = ((rtts.sum % 2 ^ 64 : Nat) : ℚ) / 1000000 / (rtts.length : ℚ) ∧
          (rtts.sum < 2 ^ 64 → s.RTT = meanMillis rtts) := by
  refine ⟨_, _, updateRTTs_ret env shards hl, ?_⟩
  intro i hi rtts hk
  have hs := collected_samples env _ _ hk
  have hrtt : (setRTT (collected env) shards[i]).RTT
      = ((rtts.sum % 2 ^ 64 : Nat) : ℚ) / 1000000 / (rtts.length : ℚ) := by
    simp only [setRTT, hk, sumRTTs_eq]
  refine ⟨setRTT (collected env) shards[i], by simp [hi], hs.1, hs.2, hrtt, ?_⟩
  intro hlt
  rw [hrtt, Nat.mod_eq_of_lt hlt, meanMillis]

/-- The amended claim C7 run on shards `A` and `B` with one sample of 10 ms for `A`. -/
theorem updateRTTs_rtt_of_samples_witness :
    rankEnv.listenOk = true ∧ collected rankEnv shardA.Addr = some [10000000] ∧
      ∃ shards' tr, updateRTTs rankEnv [shardA, shardB] = Outcome.ret shards' tr ∧
        ∃ s, shards'[0]? = some s ∧ s.RTT = meanMillis [10000000] := by
  obtain ⟨shards', tr, h, hall⟩ := updateRTTs_rtt_of_samples rankEnv [shardA, shardB] rfl
  obtain ⟨s, hs, _, _, _, hmean⟩ := hall 0 (by decide) [10000000] (by decide)
  exact ⟨rfl, by decide, shards', tr, h, s, hs, hmean (by decide)⟩

/-- C8: when the probing socket opens, `updateRTTs` returns a slice of the same
length in which every shard keeps its position and its `Addr`, and every shard
with no sample collected under its `Addr` (whether or not its address
resolved) is left as it was, so its `RTT` is the one it had before the call. -/
theorem updateRTTs_frame (env : Env) (shards : List ShardInfo) (hl : env.listenOk = true) :
    ∃ shards' tr, updateRTTs env shards = Outcome.ret shards' tr ∧
      shards'.length = shards.length ∧
      ∀ (i : Nat) (hi : i < shards.length),
        ∃ s, shards'[i]? = some s ∧ s.Addr = shards[i].Addr ∧
          (collected env shards[i].Addr = none → s.RTT = shards[i].RTT ∧ s = shards[i]) := by
  refine ⟨_, _, updateRTTs_ret env shards hl, by simp, ?_⟩
  intro i hi
  refine ⟨setRTT (collected env) shards[i], by simp [hi], ?_, ?_⟩
  · unfold setRTT
    cases collected env shards[i].Addr <;> rfl
  · intro hnone
    simp [setRTT, hnone]

/-- The claim C8 run on shards `A` and `B` when only shard `A` answers. -/
theorem updateRTTs_frame_witness :
    wrapEnv.listenOk = true ∧ collected wrapEnv shardB.Addr = none ∧
      ∃ shards' tr, updateRTTs wrapEnv [shardA, shardB] = Outcome.ret shards' tr ∧
        shards'.length = 2 ∧ shards'[1]? = some shardB := by
  obtain ⟨shards', tr, h, hlen, hall⟩ := updateRTTs_frame wrapEnv [shardA, shardB] rfl
  obtain ⟨s, hs, _, hkeep⟩ := hall 1 (by decide)
  have hnone : collected wrapEnv shardB.Addr = none := by decide
  exact ⟨rfl, hnone, shards', tr, h, hlen, by rw [hs, (hkeep hnone).2]; rfl⟩

/-! ## `sort.Sort`: slices, swaps and frames -/

theorem less_eq (s : ShardInfoSlice) (i j : Nat) (hi : i < s.length) (hj : j < s.length) :
    ShardInfoSlice.Less s i j = decide (key s i < key s j) := by
  simp [ShardInfoSlice.Less, key, List.getElem?_eq_getElem hi, List.getElem?_eq_getElem hj]

theorem less_iff (s : ShardInfoSlice) (i j : Nat) (hi : i < s.length) (hj : j < s.length) :
    ShardInfoSlice.Less s i j = true ↔ key s i < key s j := by
  simp [less_eq s i j hi hj]

theorem not_less_iff (s : ShardInfoSlice) (i j : Nat) (hi : i < s.length) (hj : j < s.length) :
    ShardInfoSlice.Less s i j = false ↔ key s j ≤ key s i := by
  simp [less_eq s i j hi hj]

theorem swap_eq (s : ShardInfoSlice) (i j : Nat) (hi : i < s.length) (hj : j < s.length) :
    ShardInfoSlice.Swap s i j = (s.set i s[j]).set j s[i] := by
  simp [ShardInfoSlice.Swap, List.getElem?_eq_getElem hi, List.getElem?_eq_getElem hj]

theorem swap_length (s : ShardInfoSlice) (i j : Nat) :
    (ShardInfoSlice.Swap s i j).length = s.length := by
  unfold ShardInfoSlice.Swap
  split <;> simp

theorem swap_getElem? (s : ShardInfoSlice) (i j k : Nat) (hi : i < s.length)
    (hj : j < s.length) :
    (ShardInfoSlice.Swap s i j)[k]? = if k = j then s[i]? else if k = i then s[j]? else s[k]? := by
  rw [swap_eq s i j hi hj]
  simp only [List.getElem?_set, List.length_set]
  by_cases h1 : j = k
  · subst h1
    simp [hj, List.getElem?_eq_getElem hi]
  · by_cases h2 : i = k
    · subst h2
      simp [h1, hi, List.getElem?_eq_getElem hj, Ne.symm h1]
    · simp [h1, h2, Ne.symm h1, Ne.symm h2]

theorem key_swap (s : ShardInfoSlice) (i j k : Nat) (hi : i < s.length) (hj : j < s.length) :
    key (ShardInfoSlice.Swap s i j) k
      = if k = j then key s i else if k = i then key s j else key s k := by
  simp only [key, swap_getElem? s i j k hi hj]
  split_ifs <;> rfl

theorem cons_set_perm (x : ShardInfo) (xs : List ShardInfo) (j : Nat) (hj : j < xs.length) :
    (xs[j] :: xs.set j x).Perm (x :: xs) := by
  induction xs generalizing j with
  | nil => simp at hj
  | cons y ys ih =>
    cases j with
    | zero => simpa using List.Perm.swap x y ys
    | succ k =>
      simp only [List.length_cons, Nat.add_lt_add_iff_right] at hj
      simp only [List.getElem_cons_succ, List.set_cons_succ]
      exact (List.Perm.swap y ys[k] (ys.set k x)).trans
        (((ih k hj).cons y).trans (List.Perm.swap x y ys))

theorem set_set_perm_lt (s : List ShardInfo) (i j : Nat) (hij : i < j) (hj : j < s.length) :
    ((s.set i (s.get ⟨j, hj⟩)).set j (s.get ⟨i, lt_trans hij hj⟩)).Perm s := by
  induction s generalizing i j with
  | nil => simp at hj
  | cons x xs ih =>
    cases j with
    | zero => omega
    | succ j =>
      simp only [List.length_cons, Nat.add_lt_add_iff_right] at hj
      cases i with
      | zero =>
        simpa using cons_set_perm x xs j hj
      | succ i =>
        have := ih i j (by omega) hj
        simpa using this

theorem swap_perm (s : ShardInfoSlice) (i j : Nat) : (ShardInfoSlice.Swap s i j).Perm s := by
  by_cases hi : i < s.length
  · by_cases hj : j < s.length
    · rw [swap_eq s i j hi hj]
      rcases Nat.lt_trichotomy i j with h | h | h
      · exact set_set_perm_lt s i j h hj
      · subst h
        rw [List.set_set]
        have : s.set i s[i] = s := by
          apply List.ext_getElem? 
          intro k
          rw [List.getElem?_set]
          by_cases hk : i = k
          · subst hk
            simp [hi]
          · simp [hk]
        rw [this]
      · rw [List.set_comm _ _ _ (Nat.ne_of_gt h)]
        exact set_set_perm_lt s j i h hi
    · simp [ShardInfoSlice.Swap, List.getElem?_eq_none (Nat.le_of_not_lt hj)]
  · simp [ShardInfoSlice.Swap, List.getElem?_eq_none (Nat.le_of_not_lt hi)]

theorem Frame.refl (s : ShardInfoSlice) (a b : Nat) : Frame s s a b :=
  ⟨rfl, List.Perm.refl s, fun _ _ => rfl, fun k hk1 hk2 => ⟨k, hk1, hk2, rfl⟩⟩

theorem Frame.trans {s t u : ShardInfoSlice} {a b : Nat} (h1 : Frame s t a b)
    (h2 : Frame t u a b) : Frame s u a b := by
  obtain ⟨l1, p1, o1, r1⟩ := h1
  obtain ⟨l2, p2, o2, r2⟩ := h2
  refine ⟨l2.trans l1, p2.trans p1, fun k hk => (o2 k hk).trans (o1 k hk), ?_⟩
  intro k hk1 hk2
  obtain ⟨m, hm1, hm2, hm⟩ := r2 k hk1 hk2
  obtain ⟨m2, hm21, hm22, hm2e⟩ := r1 m hm1 hm2
  exact ⟨m2, hm21, hm22, hm.trans hm2e⟩

theorem Frame.widen {s t : ShardInfoSlice} {a b a1 b1 : Nat} (h : Frame s t a b)
    (ha : a1 ≤ a) (hb : b ≤ b1) : Frame s t a1 b1 := by
  obtain ⟨l1, p1, o1, r1⟩ := h
  refine ⟨l1, p1, fun k hk => o1 k (by omega), ?_⟩
  intro k hk1 hk2
  by_cases hin : a ≤ k ∧ k < b
  · obtain ⟨m, hm1, hm2, hm⟩ := r1 k hin.1 hin.2
    exact ⟨m, by omega, by omega, hm⟩
  · exact ⟨k, hk1, hk2, o1 k (by omega)⟩

theorem Frame.swap (s : ShardInfoSlice) (a b i j : Nat) (hb : b ≤ s.length)
    (hi1 : a ≤ i) (hi2 : i < b) (hj1 : a ≤ j) (hj2 : j < b) :
    Frame s (ShardInfoSlice.Swap s i j) a b := by
  have hi : i < s.length := by omega
  have hj : j < s.length := by omega
  refine ⟨swap_length s i j, swap_perm s i j, ?_, ?_⟩
  · intro k hk
    rw [swap_getElem? s i j k hi hj]
    have h1 : k ≠ j := by omega
    have h2 : k ≠ i := by omega
    simp [h1, h2]
  · intro k hk1 hk2
    rw [swap_getElem? s i j k hi hj]
    by_cases h1 : k = j
    · exact ⟨i, hi1, hi2, by simp [h1]⟩
    · by_cases h2 : k = i
      · subst h2
        exact ⟨j, hj1, hj2, by simp [h1]⟩
      · exact ⟨k, hk1, hk2, by simp [h1, h2]⟩

theorem Frame.length_eq {s t : ShardInfoSlice} {a b : Nat} (h : Frame s t a b) :
    t.length = s.length := h.1

theorem Frame.key_outside {s t : ShardInfoSlice} {a b : Nat} (h : Frame s t a b) (k : Nat)
    (hk : k < a ∨ b ≤ k) : key t k = key s k := by
  simp only [key, h.2.2.1 k hk]

theorem Frame.key_inside {s t : ShardInfoSlice} {a b : Nat} (h : Frame s t a b) (k : Nat)
    (hk1 : a ≤ k) (hk2 : k < b) : ∃ m, a ≤ m ∧ m < b ∧ key t k = key s m := by
  obtain ⟨m, hm1, hm2, hm⟩ := h.2.2.2 k hk1 hk2
  exact ⟨m, hm1, hm2, by simp only [key, hm]⟩

/-! ## `sort.Sort`: insertion sort -/

theorem sortedOn_of_le {s : ShardInfoSlice} {a b : Nat} (h : b ≤ a + 1) : SortedOn s a b := by
  intro i j h1 h2 h3
  omega

theorem insertionShift_spec (a J : Nat) (j : Nat) :
    ∀ (data : ShardInfoSlice), j ≤ J → J < data.length → a ≤ j →
      (∀ i m, a ≤ i → i < m → m ≤ J → i ≠ j → m ≠ j → key data i ≤ key data m) →
      (∀ m, j < m → m ≤ J → key data j ≤ key data m) →
      Frame data (insertionShift a data j) a (J + 1) ∧
        SortedOn (insertionShift a data j) a (J + 1) := by
  induction j with
  | zero =>
    intro data _ _ haj h1 h2
    refine ⟨Frame.refl _ _ _, ?_⟩
    intro i m hi him hm
    simp only [insertionShift]
    by_cases hi0 : i = 0
    · subst hi0
      exact h2 m him (by omega)
    · exact h1 i m hi him (by omega) hi0 (by omega)
  | succ j ih =>
    intro data hjJ hJ haj h1 h2
    have hj1 : j + 1 < data.length := by omega
    have hj0 : j < data.length := by omega
    by_cases hc : (decide (a < j + 1) && ShardInfoSlice.Less data (j + 1) j) = true
    · simp only [insertionShift, hc, if_true]
      simp only [Bool.and_eq_true, decide_eq_true_eq] at hc
      obtain ⟨haj1, hless⟩ := hc
      rw [less_iff data _ _ hj1 hj0] at hless
      have hk := key_swap data (j + 1) j
      have hfr : Frame data (ShardInfoSlice.Swap data (j + 1) j) a (J + 1) :=
        Frame.swap data a (J + 1) (j + 1) j (by omega) (by omega) (by omega) (by omega) (by omega)
      have := ih (ShardInfoSlice.Swap data (j + 1) j) (by omega)
        (by rw [swap_length]; exact hJ) (by omega) ?_ ?_
      · exact ⟨hfr.trans this.1, this.2⟩
      · intro i m hi him hm hij hmj
        rw [hk i hj1 hj0, hk m hj1 hj0]
        simp only [hij, hmj, if_false]
        by_cases hi1 : i = j + 1
        · subst hi1
          simp only [if_true]
          have hm1 : m ≠ j + 1 := by omega
          simp only [hm1, if_false]
          exact h1 j m (by omega) (by omega) hm (by omega) hm1
        · simp only [hi1, if_false]
          by_cases hm1 : m = j + 1
          · subst hm1
            simp only [if_true]
            exact h1 i j hi (by omega) (by omega) hi1 (by omega)
          · simp only [hm1, if_false]
            exact h1 i m hi him hm hi1 hm1
      · intro m hjm hm
        rw [hk j hj1 hj0, hk m hj1 hj0]
        simp only [if_true]
        have hmj : m ≠ j := by omega
        simp only [hmj, if_false]
        by_cases hm1 : m = j + 1
        · subst hm1
          simp only [if_true]
          exact le_of_lt hless
        · simp only [hm1, if_false]
          exact h2 m (by omega) hm
    · simp only [insertionShift, hc]
      refine ⟨Frame.refl _ _ _, ?_⟩
      simp only [Bool.and_eq_true, decide_eq_true_eq, not_and, Bool.not_eq_true] at hc
      intro i m hi him hm
      by_cases hi1 : i = j + 1
      · subst hi1
        exact h2 m him (by omega)
      · by_cases hm1 : m = j + 1
        · subst hm1
          have hle := (not_less_iff data _ _ hj1 hj0).1 (hc (by omega))
          by_cases hij : i = j
          · subst hij
            exact hle
          · exact le_trans (h1 i j hi (by omega) (by omega) hi1 (by omega)) hle
        · exact h1 i m hi him (by omega) hi1 hm1

theorem insertionLoop_spec (a b : Nat) (n : Nat) :
    ∀ (i : Nat) (data : ShardInfoSlice), i + n = b → a < i → b ≤ data.length →
      SortedOn data a i →
      Frame data ((List.range' i n).foldl (fun d i => insertionShift a d i) data) a b ∧
        SortedOn ((List.range' i n).foldl (fun d i => insertionShift a d i) data) a b := by
  induction n with
  | zero =>
    intro i data hin _ _ hs
    simp only [List.range'_zero, List.foldl_nil]
    exact ⟨Frame.refl _ _ _, by rw [← hin]; exact hs⟩
  | succ n ih =>
    intro i data hin hai hb hs
    simp only [List.range'_succ, List.foldl_cons]
    have hsp := insertionShift_spec a i i data (le_refl _) (by omega) (by omega)
      (fun k m hk hkm hm hki hmi => hs k m hk hkm (by omega)) (fun m h1 h2 => by omega)
    have := ih (i + 1) (insertionShift a data i) (by omega) (by omega)
      (by rw [hsp.1.length_eq]; exact hb) hsp.2
    exact ⟨(hsp.1.widen (le_refl _) (by omega)).trans this.1, this.2⟩

theorem insertionSort_spec (data : ShardInfoSlice) (a b : Nat) (hb : b ≤ data.length) :
    Frame data (insertionSort data a b) a b ∧ SortedOn (insertionSort data a b) a b := by
  by_cases h : a + 1 ≤ b
  · exact insertionLoop_spec a b (b - (a + 1)) (a + 1) data (by omega) (by omega) hb
      (sortedOn_of_le (le_refl _))
  · have : b - (a + 1) = 0 := by omega
    simp only [insertionSort, this, List.range'_zero, List.foldl_nil]
    exact ⟨Frame.refl _ _ _, sortedOn_of_le (by omega)⟩

/-! Insertion sort leaves a sorted range as it is. -/

theorem insertionShift_id (a : Nat) (data : ShardInfoSlice) (j : Nat) (hj : j < data.length)
    (h : 0 < j → a < j → key data (j - 1) ≤ key data j) : insertionShift a data j = data := by
  cases j with
  | zero => rfl
  | succ j =>
    simp only [insertionShift]
    by_cases ha : a < j + 1
    · have := h (by omega) ha
      simp only [Nat.add_sub_cancel] at this
      have hl : ShardInfoSlice.Less data (j + 1) j = false :=
        (not_less_iff data _ _ hj (by omega)).2 this
      simp [hl]
    · simp [ha]

theorem insertionSort_id (data : ShardInfoSlice) (a b : Nat) (hb : b ≤ data.length)
    (hs : SortedOn data a b) : insertionSort data a b = data := by
  unfold insertionSort
  have : ∀ (l : List Nat), (∀ i ∈ l, a < i ∧ i < b) →
      l.foldl (fun d i => insertionShift a d i) data = data := by
    intro l
    induction l with
    | nil => intro _; rfl
    | cons i l ih =>
      intro hl
      have hi := hl i (List.mem_cons_self _ _)
      simp only [List.foldl_cons]
      rw [insertionShift_id a data i (by omega)
        (fun _ _ => hs (i - 1) i (by omega) (by omega) hi.2)]
      exact ih (fun k hk => hl k (List.mem_cons_of_mem _ hk))
  apply this
  intro i hi
  rw [List.mem_range'_1] at hi
  omega

/-! Insertion sort is stable. -/

theorem swap_cons_succ (x : ShardInfo) (xs : List ShardInfo) (i j : Nat) :
    ShardInfoSlice.Swap (x :: xs) (i + 1) (j + 1) = x :: ShardInfoSlice.Swap xs i j := by
  simp only [ShardInfoSlice.Swap, List.getElem?_cons_succ]
  split <;> simp_all

theorem withRTT_swap_adjacent (r : ℚ) (s : ShardInfoSlice) (j : Nat) (hj : j + 1 < s.length)
    (hne : key s (j + 1) ≠ key s j) :
    withRTT r (ShardInfoSlice.Swap s (j + 1) j) = withRTT r s := by
  induction s generalizing j with
  | nil => simp at hj
  | cons x xs ih =>
    cases j with
    | zero =>
      cases xs with
      | nil => simp at hj
      | cons y ys =>
        simp only [key, List.getElem?_cons_succ, List.getElem?_cons_zero] at hne
        simp only [ShardInfoSlice.Swap, withRTT, List.getElem?_cons_succ,
          List.getElem?_cons_zero, List.set_cons_succ, List.set_cons_zero, List.filter_cons]
        by_cases hx : x.RTT = r
        · have hy : ¬ y.RTT = r := fun hy => hne (hy.trans hx.symm)
          simp [hx, hy]
        · simp [hx]
    | succ j =>
      simp only [List.length_cons, Nat.add_lt_add_iff_right] at hj
      rw [swap_cons_succ]
      have hne2 : key xs (j + 1) ≠ key xs j := by
        simpa [key, List.getElem?_cons_succ] using hne
      have := ih j hj hne2
      simp only [withRTT, List.filter_cons] at this ⊢
      rw [this]

theorem insertionShift_stable (r : ℚ) (a : Nat) (j : Nat) :
    ∀ (data : ShardInfoSlice), j < data.length →
      withRTT r (insertionShift a data j) = withRTT r data := by
  induction j with
  | zero => intro data _; rfl
  | succ j ih =>
    intro data hj
    simp only [insertionShift]
    by_cases hc : (decide (a < j + 1) && ShardInfoSlice.Less data (j + 1) j) = true
    · simp only [hc, if_true]
      simp only [Bool.and_eq_true, decide_eq_true_eq] at hc
      have hless := (less_iff data _ _ hj (by omega)).1 hc.2
      rw [ih _ (by rw [swap_length]; omega)]
      exact withRTT_swap_adjacent r data j hj (ne_of_lt hless)
    · simp [hc]

theorem insertionSort_stable (r : ℚ) (data : ShardInfoSlice) (a b : Nat)
    (hb : b ≤ data.length) : withRTT r (insertionSort data a b) = withRTT r data := by
  unfold insertionSort
  have : ∀ (l : List Nat) (d : ShardInfoSlice), d.length = data.length →
      (∀ i ∈ l, i < b) → withRTT r d = withRTT r data →
      d.length = data.length → withRTT r (l.foldl (fun d i => insertionShift a d i) d)
        = withRTT r data := by
    intro l
    induction l with
    | nil => intro d _ _ h _; exact h
    | cons i l ih =>
      intro d hd hl h _
      have hi := hl i (List.mem_cons_self _ _)
      simp only [List.foldl_cons]
      have hfr : (insertionShift a d i).length = data.length := by
        have hperm : ∀ (j : Nat) (e : ShardInfoSlice), (insertionShift a e j).length = e.length := by
          intro j
          induction j with
          | zero => intro e; rfl
          | succ j ihj =>
            intro e
            simp only [insertionShift]
            split
            · rw [ihj, swap_length]
            · rfl
        rw [hperm, hd]
      apply ih _ hfr (fun k hk => hl k (List.mem_cons_of_mem _ hk)) _ hfr
      rw [insertionShift_stable r a i d (by omega), h]
  apply this _ _ rfl _ rfl rfl
  intro i hi
  rw [List.mem_range'_1] at hi
  omega

/-! ## `sort.Sort`: partitions -/

theorem scanUp_spec (cond : Nat → Bool) (n : Nat) :
    ∀ i, i ≤ scanUp cond n i ∧ scanUp cond n i ≤ i + n ∧
      (∀ k, i ≤ k → k < scanUp cond n i → cond k = true) ∧
      (scanUp cond n i < i + n → cond (scanUp cond n i) = false) := by
  induction n with
  | zero =>
    intro i
    simp only [scanUp]
    exact ⟨le_refl _, le_refl _, fun k h1 h2 => by omega, fun h => by omega⟩
  | succ n ih =>
    intro i
    simp only [scanUp]
    by_cases hc : cond i = true
    · simp only [hc, if_true]
      obtain ⟨h1, h2, h3, h4⟩ := ih (i + 1)
      refine ⟨by omega, by omega, ?_, fun h => h4 (by omega)⟩
      intro k hk1 hk2
      by_cases hki : k = i
      · rw [hki]; exact hc
      · exact h3 k (by omega) hk2
    · simp only [Bool.not_eq_true] at hc
      rw [hc]
      simp only [Bool.false_eq_true, if_false]
      exact ⟨le_refl _, by omega, fun k h1 h2 => by omega, fun _ => hc⟩

theorem scanDown_spec (cond : Nat → Bool) (n : Nat) :
    ∀ j, n ≤ j → scanDown cond n j ≤ j ∧ j ≤ scanDown cond n j + n ∧
      (∀ k, scanDown cond n j < k → k ≤ j → cond k = true) ∧
      (j < scanDown cond n j + n → cond (scanDown cond n j) = false) := by
  induction n with
  | zero =>
    intro j _
    simp only [scanDown]
    exact ⟨le_refl _, le_refl _, fun k h1 h2 => by omega, fun h => by omega⟩
  | succ n ih =>
    intro j hj
    simp only [scanDown]
    by_cases hc : cond j = true
    · simp only [hc, if_true]
      obtain ⟨h1, h2, h3, h4⟩ := ih (j - 1) (by omega)
      refine ⟨by omega, by omega, ?_, fun h => h4 (by omega)⟩
      intro k hk1 hk2
      by_cases hkj : k = j
      · rw [hkj]; exact hc
      · exact h3 k hk1 (by omega)
    · simp only [Bool.not_eq_true] at hc
      rw [hc]
      simp only [Bool.false_eq_true, if_false]
      exact ⟨le_refl _, by omega, fun k h1 h2 => by omega, fun _ => hc⟩

theorem partitionLoop_spec (a b : Nat) (p : ℚ) (fuel : Nat) :
    ∀ (data : ShardInfoSlice) (i j : Nat), a + 1 ≤ i → j + 1 ≤ b → i ≤ j + 1 →
      b ≤ data.length → j + 1 ≤ i + fuel → key data a = p →
      (∀ k, a + 1 ≤ k → k < i → key data k < p) →
      (∀ k, j < k → k < b → p ≤ key data k) →
      Frame data (partitionLoop a fuel data i j).1 (a + 1) b ∧
        (partitionLoop a fuel data i j).2.1 = (partitionLoop a fuel data i j).2.2 + 1 ∧
        a ≤ (partitionLoop a fuel data i j).2.2 ∧ (partitionLoop a fuel data i j).2.2 < b ∧
        (∀ k, a + 1 ≤ k → k ≤ (partitionLoop a fuel data i j).2.2 →
          key (partitionLoop a fuel data i j).1 k < p) ∧
        (∀ k, (partitionLoop a fuel data i j).2.2 < k → k < b →
          p ≤ key (partitionLoop a fuel data i j).1 k) := by
  induction fuel with
  | zero =>
    intro data i j hi hj hij hb hf hp hlo hhi
    simp only [partitionLoop]
    have : i = j + 1 := by omega
    exact ⟨Frame.refl _ _ _, this, by omega, by omega, fun k h1 h2 => hlo k h1 (by omega), hhi⟩
  | succ fuel ih =>
    intro data i j hi hj hij hb hf hp hlo hhi
    simp only [partitionLoop]
    obtain ⟨u1, u2, u3, u4⟩ := scanUp_spec (fun k => ShardInfoSlice.Less data k a) (j + 1 - i) i
    generalize scanUp (fun k => ShardInfoSlice.Less data k a) (j + 1 - i) i = i1 at u1 u2 u3 u4 ⊢
    obtain ⟨v1, v2, v3, v4⟩ := scanDown_spec (fun k => !ShardInfoSlice.Less data k a)
      (j + 1 - i1) j (by omega)
    generalize scanDown (fun k => !ShardInfoSlice.Less data k a) (j + 1 - i1) j = j1
      at v1 v2 v3 v4 ⊢
    have hlo1 : ∀ k, a + 1 ≤ k → k < i1 → key data k < p := by
      intro k hk1 hk2
      by_cases hki : k < i
      · exact hlo k hk1 hki
      · have := u3 k (by omega) hk2
        rw [← hp]
        exact (less_iff data k a (by omega) (by omega)).1 this
    have hhi1 : ∀ k, j1 < k → k < b → p ≤ key data k := by
      intro k hk1 hk2
      by_cases hkj : j < k
      · exact hhi k hkj hk2
      · have := v3 k hk1 (by omega)
        simp only [Bool.not_eq_true'] at this
        rw [← hp]
        exact (not_less_iff data k a (by omega) (by omega)).1 this
    by_cases hgt : i1 > j1
    · simp only [hgt, if_true]
      exact ⟨Frame.refl _ _ _, by omega, by omega, by omega,
        fun k h1 h2 => hlo1 k h1 (by omega), hhi1⟩
    · simp only [hgt, if_false]
      have hi1p : p ≤ key data i1 := by
        have := u4 (by omega)
        rw [← hp]
        exact (not_less_iff data i1 a (by omega) (by omega)).1 this
      have hj1p : key data j1 < p := by
        have := v4 (by omega)
        simp only [Bool.not_eq_false'] at this
        rw [← hp]
        exact (less_iff data j1 a (by omega) (by omega)).1 this
      have hne : i1 ≠ j1 := by
        intro h
        rw [h] at hi1p
        exact absurd hj1p (not_lt.2 hi1p)
      have hks := key_swap data i1 j1
      have hil : i1 < data.length := by omega
      have hjl : j1 < data.length := by omega
      have hfr : Frame data (ShardInfoSlice.Swap data i1 j1) (a + 1) b :=
        Frame.swap data (a + 1) b i1 j1 hb (by omega) (by omega) (by omega) (by omega)
      have := ih (ShardInfoSlice.Swap data i1 j1) (i1 + 1) (j1 - 1) (by omega) (by omega)
        (by omega) (by rw [swap_length]; exact hb) (by omega)
        (by rw [hks a hil hjl]
            have h1 : a ≠ j1 := by omega
            have h2 : a ≠ i1 := by omega
            simp only [h1, h2, if_false]; exact hp)
        (by intro k hk1 hk2
            rw [hks k hil hjl]
            have h1 : k ≠ j1 := by omega
            simp only [h1, if_false]
            by_cases h2 : k = i1
            · simp only [h2, if_true]; exact hj1p
            · simp only [h2, if_false]; exact hlo1 k hk1 (by omega))
        (by intro k hk1 hk2
            rw [hks k hil hjl]
            by_cases h1 : k = j1
            · simp only [h1, if_true]; exact hi1p
            · have h2 : k ≠ i1 := by omega
              simp only [h1, h2, if_false]; exact hhi1 k (by omega) hk2)
      exact ⟨hfr.trans this.1, this.2⟩

theorem partition_eq (data : ShardInfoSlice) (a b pivot : Nat) :
    (partition data a b pivot).1
        = ShardInfoSlice.Swap
            (partitionLoop a (b - a + 1) (ShardInfoSlice.Swap data a pivot) (a + 1) (b - 1)).1
            (partitionLoop a (b - a + 1) (ShardInfoSlice.Swap data a pivot) (a + 1) (b - 1)).2.2 a ∧
      (partition data a b pivot).2.1
        = (partitionLoop a (b - a + 1) (ShardInfoSlice.Swap data a pivot) (a + 1) (b - 1)).2.2 := by
  simp only [partition, partitionLoop]
  split <;> simp

theorem partition_spec (data : ShardInfoSlice) (a b pivot : Nat) (hab : a < b)
    (hb : b ≤ data.length) (hp1 : a ≤ pivot) (hp2 : pivot < b) :
    Frame data (partition data a b pivot).1 a b ∧
      a ≤ (partition data a b pivot).2.1 ∧ (partition data a b pivot).2.1 < b ∧
      (∀ k, a ≤ k → k < (partition data a b pivot).2.1 →
        key (partition data a b pivot).1 k ≤
          key (partition data a b pivot).1 (partition data a b pivot).2.1) ∧
      (∀ k, (partition data a b pivot).2.1 < k → k < b →
        key (partition data a b pivot).1 (partition data a b pivot).2.1 ≤
          key (partition data a b pivot).1 k) := by
  obtain ⟨e1, e2⟩ := partition_eq data a b pivot
  rw [e1, e2]
  have hfr0 : Frame data (ShardInfoSlice.Swap data a pivot) a b :=
    Frame.swap data a b a pivot hb (le_refl _) hab hp1 hp2
  have hl0 : b ≤ (ShardInfoSlice.Swap data a pivot).length := by rw [swap_length]; exact hb
  obtain ⟨f1, f2, f3, f4, f5, f6⟩ := partitionLoop_spec a b
    (key (ShardInfoSlice.Swap data a pivot) a) (b - a + 1) (ShardInfoSlice.Swap data a pivot)
    (a + 1) (b - 1) (le_refl _) (by omega) (by omega) hl0 (by omega) rfl
    (fun k h1 h2 => by omega) (fun k h1 h2 => by omega)
  generalize partitionLoop a (b - a + 1) (ShardInfoSlice.Swap data a pivot) (a + 1) (b - 1) = r
    at f1 f2 f3 f4 f5 f6 ⊢
  obtain ⟨d, i, j⟩ := r
  simp only at f1 f2 f3 f4 f5 f6 ⊢
  have hdl : d.length = data.length := by rw [f1.length_eq, swap_length]
  have hka : key d a = key (ShardInfoSlice.Swap data a pivot) a :=
    f1.key_outside a (Or.inl (by omega))
  have hks := key_swap d j a
  have hjl : j < d.length := by omega
  have hal : a < d.length := by omega
  refine ⟨hfr0.trans ((f1.widen (by omega) (le_refl _)).trans
    (Frame.swap d a b j a (by omega) f3 f4 (le_refl _) hab)), f3, f4, ?_, ?_⟩
  · intro k hk1 hk2
    rw [hks k hjl hal, hks j hjl hal]
    by_cases hja : j = a
    · omega
    · simp only [hja, if_false, if_true]
      by_cases hk : k = a
      · simp only [hk, if_true]
        rw [hka]
        exact le_of_lt (f5 j (by omega) (le_refl _))
      · have hkj : k ≠ j := by omega
        simp only [hk, hkj, if_false]
        rw [hka]
        exact le_of_lt (f5 k (by omega) (by omega))
  · intro k hk1 hk2
    rw [hks k hjl hal, hks j hjl hal]
    have hk : k ≠ a := by omega
    have hkj : k ≠ j := by omega
    simp only [hk, hkj, if_false]
    by_cases hja : j = a
    · simp only [hja, if_true]
      rw [hka]
      exact f6 k (by omega) hk2
    · simp only [hja, if_false, if_true]
      rw [hka]
      exact f6 k hk1 hk2

theorem partitionEqualLoop_spec (a b : Nat) (p : ℚ) (fuel : Nat) :
    ∀ (data : ShardInfoSlice) (i j : Nat), a + 1 ≤ i → j + 1 ≤ b → i ≤ j + 1 →
      b ≤ data.length → j + 1 ≤ i + fuel → key data a = p →
      (∀ k, a + 1 ≤ k → k < i → key data k ≤ p) →
      (∀ k, j < k → k < b → p < key data k) →
      Frame data (partitionEqualLoop a fuel data i j).1 (a + 1) b ∧
        a + 1 ≤ (partitionEqualLoop a fuel data i j).2 ∧
        (partitionEqualLoop a fuel data i j).2 ≤ b ∧
        (∀ k, a + 1 ≤ k → k < (partitionEqualLoop a fuel data i j).2 →
          key (partitionEqualLoop a fuel data i j).1 k ≤ p) ∧
        (∀ k, (partitionEqualLoop a fuel data i j).2 ≤ k → k < b →
          p < key (partitionEqualLoop a fuel data i j).1 k) := by
  induction fuel with
  | zero =>
    intro data i j hi hj hij hb hf hp hlo hhi
    simp only [partitionEqualLoop]
    exact ⟨Frame.refl _ _ _, hi, by omega, hlo, fun k h1 h2 => hhi k (by omega) h2⟩
  | succ fuel ih =>
    intro data i j hi hj hij hb hf hp hlo hhi
    simp only [partitionEqualLoop]
    obtain ⟨u1, u2, u3, u4⟩ := scanUp_spec (fun k => !ShardInfoSlice.Less data a k) (j + 1 - i) i
    generalize scanUp (fun k => !ShardInfoSlice.Less data a k) (j + 1 - i) i = i1
      at u1 u2 u3 u4 ⊢
    obtain ⟨v1, v2, v3, v4⟩ := scanDown_spec (fun k => ShardInfoSlice.Less data a k)
      (j + 1 - i1) j (by omega)
    generalize scanDown (fun k => ShardInfoSlice.Less data a k) (j + 1 - i1) j = j1
      at v1 v2 v3 v4 ⊢
    have hlo1 : ∀ k, a + 1 ≤ k → k < i1 → key data k ≤ p := by
      intro k hk1 hk2
      by_cases hki : k < i
      · exact hlo k hk1 hki
      · have := u3 k (by omega) hk2
        simp only [Bool.not_eq_true'] at this
        rw [← hp]
        exact (not_less_iff data a k (by omega) (by omega)).1 this
    have hhi1 : ∀ k, j1 < k → k < b → p < key data k := by
      intro k hk1 hk2
      by_cases hkj : j < k
      · exact hhi k hkj hk2
      · have := v3 k hk1 (by omega)
        rw [← hp]
        exact (less_iff data a k (by omega) (by omega)).1 this
    by_cases hgt : i1 > j1
    · simp only [hgt, if_true]
      exact ⟨Frame.refl _ _ _, by omega, by omega, hlo1, fun k h1 h2 => hhi1 k (by omega) h2⟩
    · simp only [hgt, if_false]
      have hi1p : p < key data i1 := by
        have := u4 (by omega)
        simp only [Bool.not_eq_false'] at this
        rw [← hp]
        exact (less_iff data a i1 (by omega) (by omega)).1 this
      have hj1p : key data j1 ≤ p := by
        have := v4 (by omega)
        rw [← hp]
        exact (not_less_iff data a j1 (by omega) (by omega)).1 this
      have hne : i1 ≠ j1 := by
        intro h
        rw [h] at hi1p
        exact absurd hi1p (not_lt.2 hj1p)
      have hks := key_swap data i1 j1
      have hil : i1 < data.length := by omega
      have hjl : j1 < data.length := by omega
      have hfr : Frame data (ShardInfoSlice.Swap data i1 j1) (a + 1) b :=
        Frame.swap data (a + 1) b i1 j1 hb (by omega) (by omega) (by omega) (by omega)
      have := ih (ShardInfoSlice.Swap data i1 j1) (i1 + 1) (j1 - 1) (by omega) (by omega)
        (by omega) (by rw [swap_length]; exact hb) (by omega)
        (by rw [hks a hil hjl]
            have h1 : a ≠ j1 := by omega
            have h2 : a ≠ i1 := by omega
            simp only [h1, h2, if_false]; exact hp)
        (by intro k hk1 hk2
            rw [hks k hil hjl]
            have h1 : k ≠ j1 := by omega
            simp only [h1, if_false]
            by_cases h2 : k = i1
            · simp only [h2, if_true]; exact hj1p
            · simp only [h2, if_false]; exact hlo1 k hk1 (by omega))
        (by intro k hk1 hk2
            rw [hks k hil hjl]
            by_cases h1 : k = j1
            · simp only [h1, if_true]; exact hi1p
            · have h2 : k ≠ i1 := by omega
              simp only [h1, h2, if_false]; exact hhi1 k (by omega) hk2)
      exact ⟨hfr.trans this.1, this.2⟩

theorem partitionEqual_spec (data : ShardInfoSlice) (a b pivot : Nat) (hab : a < b)
    (hb : b ≤ data.length) (hp1 : a ≤ pivot) (hp2 : pivot < b) :
    Frame data (partitionEqual data a b pivot).1 a b ∧
      a + 1 ≤ (partitionEqual data a b pivot).2 ∧ (partitionEqual data a b pivot).2 ≤ b ∧
      (∀ k, a ≤ k → k < (partitionEqual data a b pivot).2 →
        key (partitionEqual data a b pivot).1 k ≤ key data pivot) ∧
      (∀ k, (partitionEqual data a b pivot).2 ≤ k → k < b →
        key data pivot < key (partitionEqual data a b pivot).1 k) := by
  have hfr0 : Frame data (ShardInfoSlice.Swap data a pivot) a b :=
    Frame.swap data a b a pivot hb (le_refl _) hab hp1 hp2
  have hl0 : b ≤ (ShardInfoSlice.Swap data a pivot).length := by rw [swap_length]; exact hb
  have hp : key (ShardInfoSlice.Swap data a pivot) a = key data pivot := by
    rw [key_swap data a pivot a (by omega) (by omega)]
    by_cases h : a = pivot
    · simp [h]
    · simp [h]
  obtain ⟨f1, f2, f3, f4, f5⟩ := partitionEqualLoop_spec a b (key data pivot) (b - a + 1)
    (ShardInfoSlice.Swap data a pivot) (a + 1) (b - 1) (le_refl _) (by omega) (by omega) hl0
    (by omega) hp (fun k h1 h2 => by omega) (fun k h1 h2 => by omega)
  unfold partitionEqual
  refine ⟨hfr0.trans (f1.widen (by omega) (le_refl _)), f2, f3, ?_, f5⟩
  intro k hk1 hk2
  by_cases hka : k = a
  · rw [hka, f1.key_outside a (Or.inl (by omega)), hp]
  · exact f4 k (by omega) hk2

/-! ## `sort.Sort`: pivots and patterns -/

theorem LowerBound.frame {s t : ShardInfoSlice} {a b : Nat} (h : LowerBound s a b)
    (hf : Frame s t a b) : LowerBound t a b := by
  intro ha k hk1 hk2
  obtain ⟨m, hm1, hm2, hm⟩ := hf.key_inside k hk1 hk2
  rw [hm, hf.key_outside (a - 1) (Or.inl (by omega))]
  exact h ha m hm1 hm2

/-! ### `order2`, `median`, `choosePivot` -/

theorem order2_fst (data : ShardInfoSlice) (a b s : Nat) :
    ((order2 data a b s).1 = a ∧ (order2 data a b s).2.1 = b) ∨
      ((order2 data a b s).1 = b ∧ (order2 data a b s).2.1 = a) := by
  unfold order2
  split
  · right; exact ⟨rfl, rfl⟩
  · left; exact ⟨rfl, rfl⟩

theorem median_mem (data : ShardInfoSlice) (a b c s : Nat) :
    (median data a b c s).1 = a ∨ (median data a b c s).1 = b ∨ (median data a b c s).1 = c := by
  simp only [median]
  rcases order2_fst data a b s with h1 | h1 <;>
  rcases order2_fst data (order2 data a b s).2.1 c (order2 data a b s).2.2 with h2 | h2 <;>
  rcases order2_fst data (order2 data a b s).1
    (order2 data (order2 data a b s).2.1 c (order2 data a b s).2.2).1
    (order2 data (order2 data a b s).2.1 c (order2 data a b s).2.2).2.2 with h3 | h3 <;>
  simp only [h1.1, h1.2, h2.1, h2.2, h3.1, h3.2] at * <;> simp_all

theorem choosePivot_range (data : ShardInfoSlice) (a b : Nat) (hab : a < b) :
    a ≤ (choosePivot data a b).1 ∧ (choosePivot data a b).1 < b := by
  have key1 : ∀ r : Nat × Nat, (a ≤ r.1 ∧ r.1 < b) →
      a ≤ (if r.2 = 0 then (r.1, sortedHint.increasingHint)
        else if r.2 = 4 * 3 then (r.1, sortedHint.decreasingHint)
        else (r.1, sortedHint.unknownHint)).1 ∧
      (if r.2 = 0 then (r.1, sortedHint.increasingHint)
        else if r.2 = 4 * 3 then (r.1, sortedHint.decreasingHint)
        else (r.1, sortedHint.unknownHint)).1 < b := by
    intro r hr
    split
    · exact hr
    · split <;> exact hr
  unfold choosePivot
  apply key1
  by_cases h8 : b - a ≥ 8
  · simp only [h8, if_true]
    by_cases h50 : b - a ≥ 50
    · simp only [h50, if_true]
      have hq : 12 ≤ (b - a) / 4 := by omega
      have m1 := median_mem data (a + (b - a) / 4 * 1 - 1) (a + (b - a) / 4 * 1)
        (a + (b - a) / 4 * 1 + 1) 0
      have m2 := median_mem data (a + (b - a) / 4 * 2 - 1) (a + (b - a) / 4 * 2)
        (a + (b - a) / 4 * 2 + 1)
        (medianAdjacent data (a + (b - a) / 4 * 1) 0).2
      have m3 := median_mem data (a + (b - a) / 4 * 3 - 1) (a + (b - a) / 4 * 3)
        (a + (b - a) / 4 * 3 + 1)
        (medianAdjacent data (a + (b - a) / 4 * 2) (medianAdjacent data (a + (b - a) / 4 * 1) 0).2).2
      have m4 := median_mem data (medianAdjacent data (a + (b - a) / 4 * 1) 0).1
        (medianAdjacent data (a + (b - a) / 4 * 2) (medianAdjacent data (a + (b - a) / 4 * 1) 0).2).1
        (medianAdjacent data (a + (b - a) / 4 * 3)
          (medianAdjacent data (a + (b - a) / 4 * 2)
            (medianAdjacent data (a + (b - a) / 4 * 1) 0).2).2).1
        (medianAdjacent data (a + (b - a) / 4 * 3)
          (medianAdjacent data (a + (b - a) / 4 * 2)
            (medianAdjacent data (a + (b - a) / 4 * 1) 0).2).2).2
      simp only [medianAdjacent] at m1 m2 m3 m4 ⊢
      omega
    · simp only [h50, if_false]
      have m := median_mem data (a + (b - a) / 4 * 1) (a + (b - a) / 4 * 2)
        (a + (b - a) / 4 * 3) 0
      omega
  · simp only [h8, if_false]
    omega

theorem order2_sorted (data : ShardInfoSlice) (x y s : Nat) (hy : y < data.length)
    (hxy : x < y) (h : key data x ≤ key data y) : order2 data x y s = (x, y, s) := by
  unfold order2
  have : ShardInfoSlice.Less data y x = false :=
    (not_less_iff data y x hy (by omega)).2 h
  simp [this]

theorem median_sorted (data : ShardInfoSlice) (x y z s : Nat) (hz : z < data.length)
    (hxy : x < y) (hyz : y < z) (h1 : key data x ≤ key data y) (h2 : key data y ≤ key data z) :
    median data x y z s = (y, s) := by
  simp only [median, order2_sorted data x y s (by omega) hxy h1,
    order2_sorted data y z s hz hyz h2]

theorem choosePivot_sorted (data : ShardInfoSlice) (a b : Nat) (hb : b ≤ data.length)
    (hs : SortedOn data a b) : (choosePivot data a b).2 = sortedHint.increasingHint := by
  have key1 : ∀ r : Nat × Nat, r.2 = 0 →
      (if r.2 = 0 then (r.1, sortedHint.increasingHint)
        else if r.2 = 4 * 3 then (r.1, sortedHint.decreasingHint)
        else (r.1, sortedHint.unknownHint)).2 = sortedHint.increasingHint := by
    intro r hr
    simp [hr]
  unfold choosePivot
  apply key1
  by_cases h8 : b - a ≥ 8
  · simp only [h8, if_true]
    have hmed : ∀ x y z s, a ≤ x → x < y → y < z → z < b → median data x y z s = (y, s) :=
      fun x y z s hx hxy hyz hz => median_sorted data x y z s (by omega) hxy hyz
        (hs x y hx hxy (by omega)) (hs y z (by omega) hyz hz)
    by_cases h50 : b - a ≥ 50
    · simp only [h50, if_true, medianAdjacent]
      have hq : 12 ≤ (b - a) / 4 := by omega
      rw [hmed _ _ _ 0 (by omega) (by omega) (by omega) (by omega)]
      simp only
      rw [hmed _ _ _ 0 (by omega) (by omega) (by omega) (by omega)]
      simp only
      rw [hmed _ _ _ 0 (by omega) (by omega) (by omega) (by omega)]
      simp only
      rw [hmed _ _ _ 0 (by omega) (by omega) (by omega) (by omega)]
    · simp only [h50, if_false]
      rw [hmed _ _ _ 0 (by omega) (by omega) (by omega) (by omega)]
  · simp only [h8, if_false]

/-! ### `reverseRange` -/

theorem reverseLoop_frame (a b : Nat) (n : Nat) :
    ∀ (data : ShardInfoSlice) (i j : Nat), a ≤ i → j < b → b ≤ data.length →
      Frame data (reverseLoop n data i j) a b := by
  induction n with
  | zero => intro data i j _ _ _; exact Frame.refl _ _ _
  | succ n ih =>
    intro data i j hi hj hb
    simp only [reverseLoop]
    by_cases hij : i < j
    · simp only [hij, if_true]
      exact (Frame.swap data a b i j hb hi (by omega) (by omega) hj).trans
        (ih _ _ _ (by omega) (by omega) (by rw [swap_length]; exact hb))
    · simp only [hij, if_false]
      exact Frame.refl _ _ _

theorem reverseRange_frame (data : ShardInfoSlice) (a b : Nat) (hab : a < b)
    (hb : b ≤ data.length) : Frame data (reverseRange data a b) a b :=
  reverseLoop_frame a b (b - a) data a (b - 1) (le_refl _) (by omega) hb

/-! ### `breakPatterns` -/

theorem bitsLen_zero (fuel : Nat) : bitsLen fuel 0 = 0 := by
  cases fuel <;> simp [bitsLen]

theorem two_pow_bitsLen_le (fuel : Nat) : ∀ n, 0 < n → 2 ^ bitsLen fuel n ≤ 2 * n := by
  induction fuel with
  | zero => intro n hn; simp only [bitsLen, pow_zero]; omega
  | succ fuel ih =>
    intro n hn
    have hn0 : n ≠ 0 := by omega
    simp only [bitsLen, hn0, if_false, pow_succ]
    by_cases h2 : n / 2 = 0
    · rw [h2, bitsLen_zero]
      simp only [pow_zero]
      omega
    · have := ih (n / 2) (by omega)
      omega

theorem breakPatternsLoop_frame (a b length modulus idx : Nat) (hlen : a + length = b)
    (hpos : 0 < length) (hmod : modulus ≤ 2 * length) (n : Nat) :
    ∀ (data : ShardInfoSlice) (random i : Nat), a ≤ idx - 1 + i → idx - 1 + i + n ≤ b →
      b ≤ data.length →
      Frame data (breakPatternsLoop a length modulus idx n data random i) a b := by
  induction n with
  | zero => intro data random i _ _ _; exact Frame.refl _ _ _
  | succ n ih =>
    intro data random i h1 h2 hb
    simp only [breakPatternsLoop]
    have hand : xorshiftNext random &&& (modulus - 1) ≤ modulus - 1 := Nat.and_le_right
    have hother : (if xorshiftNext random &&& (modulus - 1) ≥ length
        then (xorshiftNext random &&& (modulus - 1)) - length
        else xorshiftNext random &&& (modulus - 1)) < length := by
      split <;> omega
    exact (Frame.swap data a b _ _ hb h1 (by omega) (by omega) (by omega)).trans
      (ih _ _ _ (by omega) (by omega) (by rw [swap_length]; exact hb))

theorem breakPatterns_frame (data : ShardInfoSlice) (a b : Nat) (hab : a ≤ b)
    (hb : b ≤ data.length) : Frame data (breakPatterns data a b) a b := by
  unfold breakPatterns
  by_cases h8 : b - a ≥ 8
  · simp only [h8, if_true]
    exact breakPatternsLoop_frame a b (b - a) (nextPowerOfTwo (b - a)) _ (by omega) (by omega)
      (two_pow_bitsLen_le _ _ (by omega)) 3 data _ 0 (by omega) (by omega) hb
  · simp only [h8, if_false]
    exact Frame.refl _ _ _

/-! ## `sort.Sort`: partial insertion sort -/

theorem sortedOn_of_adjacent (s : ShardInfoSlice) (a b : Nat)
    (h : ∀ k, a < k → k < b → key s (k - 1) ≤ key s k) : SortedOn s a b := by
  intro i j hi hij hj
  induction j with
  | zero => omega
  | succ j ih =>
    by_cases hij2 : i = j
    · subst hij2
      simpa using h (i + 1) (by omega) hj
    · have h1 := ih (by omega) (by omega)
      have h2 := h (j + 1) (by omega) hj
      simp only [Nat.add_sub_cancel] at h2
      exact le_trans h1 h2

theorem SortedOn.extend {s : ShardInfoSlice} {a i i1 : Nat} (hs : SortedOn s a i)
    (h : ∀ k, i ≤ k → k < i1 → key s (k - 1) ≤ key s k) : SortedOn s a i1 := by
  apply sortedOn_of_adjacent
  intro k hk1 hk2
  by_cases hki : k < i
  · exact hs (k - 1) k (by omega) (by omega) hki
  · exact h k (by omega) hk2

theorem insertionShift_lower (a : Nat) (j : Nat) :
    ∀ (data : ShardInfoSlice), a ≤ j → j < data.length →
      (0 < a → key data (a - 1) ≤ key data j) →
      insertionShift 0 data j = insertionShift a data j := by
  induction j with
  | zero => intro data _ _ _; rfl
  | succ j ih =>
    intro data haj hj hlb
    simp only [insertionShift]
    by_cases ha : a < j + 1
    · have h0 : 0 < j + 1 := by omega
      simp only [ha, h0, decide_True, Bool.true_and]
      by_cases hl : ShardInfoSlice.Less data (j + 1) j = true
      · simp only [hl, if_true]
        apply ih _ (by omega) (by rw [swap_length]; omega)
        intro ha0
        rw [key_swap data (j + 1) j _ hj (by omega), key_swap data (j + 1) j _ hj (by omega)]
        have h1 : a - 1 ≠ j := by omega
        have h2 : a - 1 ≠ j + 1 := by omega
        simp only [h1, h2, if_false, if_true]
        exact hlb ha0
      · simp only [hl]
        rfl
    · have haeq : a = j + 1 := by omega
      have h0 : 0 < j + 1 := by omega
      have hl : ShardInfoSlice.Less data (j + 1) j = false := by
        apply (not_less_iff data _ _ hj (by omega)).2
        have := hlb (by omega)
        rw [haeq] at this
        simpa using this
      simp [ha, hl]

theorem shiftRight_frame (lo b : Nat) (n : Nat) :
    ∀ (data : ShardInfoSlice) (j : Nat), lo + 1 ≤ j → j + n ≤ b → b ≤ data.length →
      Frame data (shiftRight n data j) lo b := by
  induction n with
  | zero => intro data j _ _ _; exact Frame.refl _ _ _
  | succ n ih =>
    intro data j h1 h2 hb
    simp only [shiftRight]
    split
    · exact Frame.refl _ _ _
    · exact (Frame.swap data lo b j (j - 1) hb (by omega) (by omega) (by omega) (by omega)).trans
        (ih _ _ (by omega) (by omega) (by rw [swap_length]; exact hb))

theorem partialInsertionLoop_spec (a b : Nat) (hab : a < b) (steps : Nat) :
    ∀ (data : ShardInfoSlice) (i : Nat), a + 1 ≤ i → i ≤ b → b ≤ data.length →
      LowerBound data a b → SortedOn data a i →
      Frame data (partialInsertionLoop a b steps data i).1 a b ∧
        ((partialInsertionLoop a b steps data i).2 = true →
          SortedOn (partialInsertionLoop a b steps data i).1 a b) := by
  induction steps with
  | zero =>
    intro data i _ _ _ _ _
    simp only [partialInsertionLoop]
    exact ⟨Frame.refl _ _ _, fun h => by simp at h⟩
  | succ steps ih =>
    intro data i hi hib hb hlb hs
    simp only [partialInsertionLoop]
    obtain ⟨u1, u2, u3, u4⟩ :=
      scanUp_spec (fun k => !ShardInfoSlice.Less data k (k - 1)) (b - i) i
    generalize scanUp (fun k => !ShardInfoSlice.Less data k (k - 1)) (b - i) i = i1
      at u1 u2 u3 u4 ⊢
    have hs1 : SortedOn data a i1 := by
      apply hs.extend
      intro k hk1 hk2
      have := u3 k hk1 hk2
      simp only [Bool.not_eq_true'] at this
      exact (not_less_iff data k (k - 1) (by omega) (by omega)).1 this
    by_cases hib1 : i1 = b
    · simp only [hib1, if_true]
      exact ⟨Frame.refl _ _ _, fun _ => by rw [← hib1]; exact hs1⟩
    · simp only [hib1, if_false]
      by_cases h50 : b - a < 50
      · simp only [h50, if_true]
        exact ⟨Frame.refl _ _ _, fun h => by simp at h⟩
      · simp only [h50, if_false]
        have hi1b : i1 < b := by omega
        have hfr1 : Frame data (ShardInfoSlice.Swap data i1 (i1 - 1)) a b :=
          Frame.swap data a b i1 (i1 - 1) hb (by omega) hi1b (by omega) (by omega)
        have hlen1 : (ShardInfoSlice.Swap data i1 (i1 - 1)).length = data.length :=
          swap_length _ _ _
        have hks := key_swap data i1 (i1 - 1)
        -- the shift to the left
        have hd2 : Frame (ShardInfoSlice.Swap data i1 (i1 - 1))
              (if i1 - a ≥ 2 then insertionShift 0 (ShardInfoSlice.Swap data i1 (i1 - 1)) (i1 - 1)
                else ShardInfoSlice.Swap data i1 (i1 - 1)) a b ∧
            SortedOn
              (if i1 - a ≥ 2 then insertionShift 0 (ShardInfoSlice.Swap data i1 (i1 - 1)) (i1 - 1)
                else ShardInfoSlice.Swap data i1 (i1 - 1)) a i1 := by
          by_cases h2 : i1 - a ≥ 2
          · simp only [h2, if_true]
            rw [insertionShift_lower a (i1 - 1) _ (by omega) (by omega)
              (fun ha0 => (hlb.frame hfr1) ha0 (i1 - 1) (by omega) (by omega))]
            have := insertionShift_spec a (i1 - 1) (i1 - 1)
              (ShardInfoSlice.Swap data i1 (i1 - 1)) (le_refl _) (by omega) (by omega)
              (by intro k m hk hkm hm hk1 hm1
                  rw [hks k (by omega) (by omega), hks m (by omega) (by omega)]
                  have e1 : k ≠ i1 - 1 := hk1
                  have e2 : m ≠ i1 - 1 := hm1
                  have e3 : k ≠ i1 := by omega
                  have e4 : m ≠ i1 := by omega
                  simp only [e1, e2, e3, e4, if_false]
                  exact hs1 k m hk hkm (by omega))
              (by intro m h1 h2; omega)
            have hcancel : i1 - 1 + 1 = i1 := by omega
            rw [hcancel] at this
            exact ⟨this.1.widen (le_refl _) (by omega), this.2⟩
          · simp only [h2, if_false]
            exact ⟨Frame.refl _ _ _, sortedOn_of_le (by omega)⟩
        generalize (if i1 - a ≥ 2 then
            insertionShift 0 (ShardInfoSlice.Swap data i1 (i1 - 1)) (i1 - 1)
          else ShardInfoSlice.Swap data i1 (i1 - 1)) = d2 at hd2 ⊢
        have hlen2 : d2.length = data.length := by rw [hd2.1.length_eq, hlen1]
        have hd3 : Frame d2
              (if b - i1 ≥ 2 then shiftRight (b - (i1 + 1)) d2 (i1 + 1) else d2) i1 b := by
          by_cases h2 : b - i1 ≥ 2
          · simp only [h2, if_true]
            exact shiftRight_frame i1 b _ d2 (i1 + 1) (le_refl _) (by omega) (by omega)
          · simp only [h2, if_false]
            exact Frame.refl _ _ _
        generalize (if b - i1 ≥ 2 then shiftRight (b - (i1 + 1)) d2 (i1 + 1) else d2) = d3
          at hd3 ⊢
        have hfr3 : Frame data d3 a b :=
          (hfr1.trans hd2.1).trans (hd3.widen (by omega) (le_refl _))
        have hs3 : SortedOn d3 a i1 := by
          intro k m hk hkm hm
          rw [hd3.key_outside k (Or.inl (by omega)), hd3.key_outside m (Or.inl (by omega))]
          exact hd2.2 k m hk hkm hm
        have := ih d3 i1 (by omega) (by omega) (by rw [hfr3.length_eq]; exact hb)
          (hlb.frame hfr3) hs3
        exact ⟨hfr3.trans this.1, this.2⟩

theorem partialInsertionSort_spec (data : ShardInfoSlice) (a b : Nat) (hab : a < b)
    (hb : b ≤ data.length) (hlb : LowerBound data a b) :
    Frame data (partialInsertionSort data a b).1 a b ∧
      ((partialInsertionSort data a b).2 = true →
        SortedOn (partialInsertionSort data a b).1 a b) :=
  partialInsertionLoop_spec a b hab 5 data (a + 1) (le_refl _) (by omega) hb hlb
    (sortedOn_of_le (le_refl _))

theorem scanUp_all (cond : Nat → Bool) (n : Nat) :
    ∀ i, (∀ k, i ≤ k → k < i + n → cond k = true) → scanUp cond n i = i + n := by
  induction n with
  | zero => intro i _; rfl
  | succ n ih =>
    intro i h
    simp only [scanUp, h i (le_refl _) (by omega), if_true]
    rw [ih (i + 1) (fun k h1 h2 => h k (by omega) (by omega))]
    omega

theorem partialInsertionSort_sorted (data : ShardInfoSlice) (a b : Nat) (hab : a < b)
    (hb : b ≤ data.length) (hs : SortedOn data a b) :
    partialInsertionSort data a b = (data, true) := by
  simp only [partialInsertionSort, partialInsertionLoop]
  have : scanUp (fun k => !ShardInfoSlice.Less data k (k - 1)) (b - (a + 1)) (a + 1) = b := by
    rw [scanUp_all]
    · omega
    · intro k hk1 hk2
      have hle := hs (k - 1) k (by omega) (by omega) (by omega)
      have := (not_less_iff data k (k - 1) (by omega) (by omega)).2 hle
      simp [this]
  simp [this]

/-! ## `sort.Sort`: heap sort -/

theorem key_swap_off (d : ShardInfoSlice) (first x y : Nat) (hx : first + x < d.length)
    (hy : first + y < d.length) (k : Nat) :
    key (ShardInfoSlice.Swap d (first + x) (first + y)) (first + k)
      = if k = y then key d (first + x) else if k = x then key d (first + y)
        else key d (first + k) := by
  rw [key_swap d _ _ _ hx hy]
  simp only [Nat.add_left_cancel_iff]

theorem siftDownLoop_spec (hi first lo : Nat) (fuel : Nat) :
    ∀ (data : ShardInfoSlice) (root : Nat), lo ≤ root → hi ≤ root + fuel →
      first + hi ≤ data.length →
      (∀ r c, lo ≤ r → r ≠ root → (c = 2 * r + 1 ∨ c = 2 * r + 2) → c < hi →
        key data (first + c) ≤ key data (first + r)) →
      (∀ g c, lo ≤ g → (root = 2 * g + 1 ∨ root = 2 * g + 2) →
        (c = 2 * root + 1 ∨ c = 2 * root + 2) → c < hi →
        key data (first + c) ≤ key data (first + g)) →
      Frame data (siftDownLoop hi first fuel data root) (first + lo) (first + hi) ∧
        HeapFrom (siftDownLoop hi first fuel data root) first lo hi := by
  induction fuel with
  | zero =>
    intro data root hlo hf hlen inv1 inv2
    simp only [siftDownLoop]
    refine ⟨Frame.refl _ _ _, ?_⟩
    intro r c hr hc hch
    by_cases hrr : r = root
    · omega
    · exact inv1 r c hr hrr hc hch
  | succ fuel ih =>
    intro data root hlo hf hlen inv1 inv2
    simp only [siftDownLoop]
    by_cases hge : 2 * root + 1 ≥ hi
    · simp only [hge, if_true]
      refine ⟨Frame.refl _ _ _, ?_⟩
      intro r c hr hc hch
      by_cases hrr : r = root
      · omega
      · exact inv1 r c hr hrr hc hch
    · simp only [hge, if_false]
      have hchild : ∃ child, (child = 2 * root + 1 ∨ child = 2 * root + 2) ∧ child < hi ∧
          (∀ c, (c = 2 * root + 1 ∨ c = 2 * root + 2) → c < hi →
            key data (first + c) ≤ key data (first + child)) ∧
          (if 2 * root + 1 + 1 < hi &&
              ShardInfoSlice.Less data (first + (2 * root + 1)) (first + (2 * root + 1) + 1)
            then 2 * root + 1 + 1 else 2 * root + 1) = child := by
        by_cases hc : (decide (2 * root + 1 + 1 < hi) &&
            ShardInfoSlice.Less data (first + (2 * root + 1)) (first + (2 * root + 1) + 1)) = true
        · refine ⟨2 * root + 2, Or.inr rfl, ?_, ?_, by simp only [hc, if_true]⟩
          · simp only [Bool.and_eq_true, decide_eq_true_eq] at hc
            omega
          · simp only [Bool.and_eq_true, decide_eq_true_eq] at hc
            intro c hcc hch
            rcases hcc with h | h
            · subst h
              have := (less_iff data _ _ (by omega) (by omega)).1 hc.2
              exact le_of_lt this
            · subst h
              exact le_refl _
        · refine ⟨2 * root + 1, Or.inl rfl, by omega, ?_, by simp only [hc]; rfl⟩
          simp only [Bool.and_eq_true, decide_eq_true_eq, not_and, Bool.not_eq_true] at hc
          intro c hcc hch
          rcases hcc with h | h
          · subst h
            exact le_refl _
          · subst h
            exact (not_less_iff data _ _ (by omega) (by omega)).1 (hc (by omega))
      obtain ⟨child, hc1, hc2, hc3, hc4⟩ := hchild
      rw [hc4]
      by_cases hl : ShardInfoSlice.Less data (first + root) (first + child) = true
      · simp only [hl, Bool.not_true, Bool.false_eq_true, if_false]
        have hlt := (less_iff data _ _ (by omega) (by omega)).1 hl
        have hk := key_swap_off data first root child (by omega) (by omega)
        have hfr : Frame data (ShardInfoSlice.Swap data (first + root) (first + child))
            (first + lo) (first + hi) :=
          Frame.swap data _ _ _ _ hlen (by omega) (by omega) (by omega) (by omega)
        have := ih (ShardInfoSlice.Swap data (first + root) (first + child)) child (by omega)
          (by omega) (by rw [swap_length]; exact hlen) ?_ ?_
        · exact ⟨hfr.trans this.1, this.2⟩
        · intro r c hr hrc hc hch
          rw [hk c, hk r]
          simp only [hrc, if_false]
          by_cases hrr : r = root
          · subst hrr
            simp only [if_true]
            by_cases hcc : c = child
            · simp only [hcc, if_true]
              exact le_of_lt hlt
            · have hcr : c ≠ r := by omega
              simp only [hcc, hcr, if_false]
              exact hc3 c hc hch
          · simp only [hrr, if_false]
            have hcc : c ≠ child := by omega
            simp only [hcc, if_false]
            by_cases hcr : c = root
            · simp only [hcr, if_true]
              exact inv2 r child hr (by omega) hc1 hc2
            · simp only [hcr, if_false]
              exact inv1 r c hr hrr hc hch
        · intro g c hg hgc hc hch
          have hgr : g = root := by omega
          subst hgr
          rw [hk c, hk g]
          have e1 : g ≠ child := by omega
          have e2 : c ≠ child := by omega
          have e3 : c ≠ g := by omega
          simp only [e1, e2, e3, if_false, if_true]
          exact inv1 child c (by omega) (by omega) hc hch
      · simp only [hl]
        simp only [Bool.not_eq_true] at hl
        have hle := (not_less_iff data _ _ (by omega) (by omega)).1 hl
        refine ⟨Frame.refl _ _ _, ?_⟩
        intro r c hr hc hch
        by_cases hrr : r = root
        · subst hrr
          exact le_trans (hc3 c hc hch) hle
        · exact inv1 r c hr hrr hc hch

theorem siftDown_spec (data : ShardInfoSlice) (lo hi first : Nat)
    (hlen : first + hi ≤ data.length) (h : HeapFrom data first (lo + 1) hi) :
    Frame data (siftDown data lo hi first) (first + lo) (first + hi) ∧
      HeapFrom (siftDown data lo hi first) first lo hi :=
  siftDownLoop_spec hi first lo hi data lo (le_refl _) (by omega) hlen
    (fun r c hr hrl hc hch => h r c (by omega) hc hch)
    (fun g c hg hgc _ _ => by omega)

theorem range_reverse_succ (n : Nat) : (List.range (n + 1)).reverse = n :: (List.range n).reverse := by
  rw [List.range_succ, List.reverse_append]
  rfl

theorem heapBuild_spec (hi first : Nat) (n : Nat) :
    ∀ (data : ShardInfoSlice), first + hi ≤ data.length → HeapFrom data first n hi →
      Frame data ((List.range n).reverse.foldl (fun d i => siftDown d i hi first) data)
          first (first + hi) ∧
        HeapFrom ((List.range n).reverse.foldl (fun d i => siftDown d i hi first) data)
          first 0 hi := by
  induction n with
  | zero =>
    intro data _ h
    exact ⟨Frame.refl _ _ _, h⟩
  | succ n ih =>
    intro data hlen h
    rw [range_reverse_succ, List.foldl_cons]
    obtain ⟨f1, f2⟩ := siftDown_spec data n hi first hlen h
    obtain ⟨g1, g2⟩ := ih (siftDown data n hi first) (by rw [f1.length_eq]; exact hlen) f2
    exact ⟨(f1.widen (by omega) (le_refl _)).trans g1, g2⟩

theorem heap_max (d : ShardInfoSlice) (first n : Nat) (h : HeapFrom d first 0 n) :
    ∀ c, c < n → key d (first + c) ≤ key d (first + 0) := by
  intro c
  induction c using Nat.strong_induction_on with
  | _ c ih =>
    intro hc
    by_cases hc0 : c = 0
    · subst hc0
      exact le_refl _
    · have h1 := h ((c - 1) / 2) c (Nat.zero_le _) (by omega) hc
      have h2 := ih ((c - 1) / 2) (by omega) (by omega)
      exact le_trans h1 h2

theorem heapPop_spec (hi first : Nat) (n : Nat) :
    ∀ (data : ShardInfoSlice), n ≤ hi → first + hi ≤ data.length → HeapFrom data first 0 n →
      SortedOn data (first + n) (first + hi) →
      (∀ x y, x < n → n ≤ y → y < hi → key data (first + x) ≤ key data (first + y)) →
      Frame data ((List.range n).reverse.foldl
          (fun d i => siftDown (ShardInfoSlice.Swap d first (first + i)) 0 i first) data)
          first (first + hi) ∧
        SortedOn ((List.range n).reverse.foldl
          (fun d i => siftDown (ShardInfoSlice.Swap d first (first + i)) 0 i first) data)
          first (first + hi) := by
  induction n with
  | zero =>
    intro data _ _ _ hs _
    exact ⟨Frame.refl _ _ _, by simpa using hs⟩
  | succ n ih =>
    intro data hn hlen hheap hs hcross
    rw [range_reverse_succ, List.foldl_cons]
    have hmax := heap_max data first (n + 1) hheap
    have hk := key_swap_off data first 0 n (by omega) (by omega)
    simp only [Nat.add_zero] at hk hmax
    have hfr1 : Frame data (ShardInfoSlice.Swap data first (first + n)) first (first + hi) :=
      Frame.swap data _ _ _ _ hlen (le_refl _) (by omega) (by omega) (by omega)
    have hlen1 : first + n ≤ (ShardInfoSlice.Swap data first (first + n)).length := by
      rw [swap_length]; omega
    obtain ⟨f1, f2⟩ := siftDown_spec (ShardInfoSlice.Swap data first (first + n)) 0 n first
      hlen1 (by
        intro r c hr hc hch
        rw [hk c, hk r]
        have e1 : c ≠ n := by omega
        have e2 : c ≠ 0 := by omega
        have e3 : r ≠ n := by omega
        have e4 : r ≠ 0 := by omega
        simp only [e1, e2, e3, e4, if_false]
        exact hheap r c (Nat.zero_le _) hc (by omega))
    simp only [Nat.add_zero] at f1
    generalize siftDown (ShardInfoSlice.Swap data first (first + n)) 0 n first = d2 at f1 f2 ⊢
    have hout : ∀ y, n ≤ y → key d2 (first + y)
        = if y = n then key data first else key data (first + y) := by
      intro y hy
      rw [f1.key_outside (first + y) (Or.inr (by omega)), hk y]
      by_cases hyn : y = n
      · simp [hyn]
      · have : y ≠ 0 := by omega
        simp [hyn, this]
    have hin : ∀ x, x < n → ∃ m, m < n + 1 ∧ key d2 (first + x) = key data (first + m) := by
      intro x hx
      obtain ⟨m, hm1, hm2, hm⟩ := f1.key_inside (first + x) (by omega) (by omega)
      obtain ⟨m', rfl⟩ : ∃ m', m = first + m' := ⟨m - first, by omega⟩
      rw [hm, hk m']
      have e1 : m' ≠ n := by omega
      simp only [e1, if_false]
      by_cases hm0 : m' = 0
      · exact ⟨n, by omega, by simp [hm0]⟩
      · exact ⟨m', by omega, by simp [hm0]⟩
    have := ih d2 (by omega) (by rw [f1.length_eq, swap_length]; exact hlen) f2 ?_ ?_
    · exact ⟨(hfr1.trans (f1.widen (le_refl _) (by omega))).trans this.1, this.2⟩
    · intro i j hi hij hj
      obtain ⟨i', rfl⟩ : ∃ i', i = first + i' := ⟨i - first, by omega⟩
      obtain ⟨j', rfl⟩ : ∃ j', j = first + j' := ⟨j - first, by omega⟩
      rw [hout i' (by omega), hout j' (by omega)]
      have ej : j' ≠ n := by omega
      simp only [ej, if_false]
      by_cases ei : i' = n
      · simp only [ei, if_true]
        have := hcross 0 j' (by omega) (by omega) (by omega)
        simpa using this
      · simp only [ei, if_false]
        exact hs (first + i') (first + j') (by omega) hij hj
    · intro x y hx hy hyh
      obtain ⟨m, hm1, hm⟩ := hin x hx
      rw [hm, hout y hy]
      by_cases hyn : y = n
      · simp only [hyn, if_true]
        exact hmax m hm1
      · simp only [hyn, if_false]
        exact hcross m y hm1 (by omega) hyh

theorem heapSort_spec (data : ShardInfoSlice) (a b : Nat) (hab : a ≤ b)
    (hb : b ≤ data.length) :
    Frame data (heapSort data a b) a b ∧ SortedOn (heapSort data a b) a b := by
  simp only [heapSort]
  have hlen : a + (b - a) ≤ data.length := by omega
  obtain ⟨f1, f2⟩ := heapBuild_spec (b - a) a ((b - a - 1) / 2 + 1) data hlen
    (by intro r c hr hc hch; omega)
  generalize (List.range ((b - a - 1) / 2 + 1)).reverse.foldl
    (fun d i => siftDown d i (b - a) a) data = built at f1 f2 ⊢
  obtain ⟨g1, g2⟩ := heapPop_spec (b - a) a (b - a) built (le_refl _)
    (by rw [f1.length_eq]; exact hlen) f2 (sortedOn_of_le (by omega))
    (fun x y hx hy hyh => by omega)
  have hba : a + (b - a) = b := by omega
  rw [hba] at f1 g1 g2
  exact ⟨f1.trans g1, g2⟩

/-! ## `sort.Sort`: the whole sort -/

theorem sortedOn_glue (s t : ShardInfoSlice) (a b mid : Nat)
    (hlo : ∀ k, a ≤ k → k < mid → key s k ≤ key s mid)
    (hhi : ∀ k, mid < k → k < b → key s mid ≤ key s k)
    (hmid : key t mid = key s mid)
    (hl : ∀ k, a ≤ k → k < mid → ∃ m, a ≤ m ∧ m < mid ∧ key t k = key s m)
    (hr : ∀ k, mid < k → k < b → ∃ m, mid < m ∧ m < b ∧ key t k = key s m)
    (hsl : SortedOn t a mid) (hsr : SortedOn t (mid + 1) b) : SortedOn t a b := by
  have hlt : ∀ k, a ≤ k → k < mid → key t k ≤ key s mid := by
    intro k h1 h2
    obtain ⟨m, hm1, hm2, hm⟩ := hl k h1 h2
    rw [hm]
    exact hlo m hm1 hm2
  have hrt : ∀ k, mid < k → k < b → key s mid ≤ key t k := by
    intro k h1 h2
    obtain ⟨m, hm1, hm2, hm⟩ := hr k h1 h2
    rw [hm]
    exact hhi m hm1 hm2
  intro i j hi hij hj
  by_cases h1 : j < mid
  · exact hsl i j hi hij h1
  · by_cases h2 : mid < i
    · exact hsr i j (by omega) hij hj
    · by_cases h3 : i = mid
      · rw [h3, hmid]
        exact hrt j (by omega) hj
      · by_cases h4 : j = mid
        · rw [h4, hmid]
          exact hlt i hi (by omega)
        · exact le_trans (hlt i hi (by omega)) (hrt j (by omega) hj)

theorem pdqsort_spec (fuel : Nat) :
    ∀ (data : ShardInfoSlice) (a b limit : Nat) (wasBalanced wasPartitioned : Bool),
      b ≤ data.length → b ≤ a + fuel → LowerBound data a b →
      Frame data (pdqsort fuel data a b limit wasBalanced wasPartitioned) a b ∧
        SortedOn (pdqsort fuel data a b limit wasBalanced wasPartitioned) a b := by
  induction fuel with
  | zero =>
    intro data a b limit wb wp hb hf hlb
    simp only [pdqsort]
    exact ⟨Frame.refl _ _ _, sortedOn_of_le (by omega)⟩
  | succ fuel ih =>
    intro data a b limit wb wp hb hf hlb
    simp only [pdqsort]
    by_cases h12 : b - a ≤ 12
    · simp only [h12, if_true]
      exact insertionSort_spec data a b hb
    · simp only [h12, if_false]
      have hab : a < b := by omega
      by_cases hlim : limit = 0
      · simp only [hlim, if_true]
        exact heapSort_spec data a b (by omega) hb
      · simp only [hlim, if_false]
        -- breakPatterns
        have hf1 : Frame data (if (!wb) = true then breakPatterns data a b else data) a b := by
          split
          · exact breakPatterns_frame data a b (by omega) hb
          · exact Frame.refl _ _ _
        generalize (if (!wb) = true then breakPatterns data a b else data) = data1 at hf1 ⊢
        generalize (if (!wb) = true then limit - 1 else limit) = limit1
        have hb1 : b ≤ data1.length := by rw [hf1.length_eq]; exact hb
        -- choosePivot and reverseRange
        obtain ⟨hp1, hp2⟩ := choosePivot_range data1 a b hab
        generalize choosePivot data1 a b = ph at hp1 hp2 ⊢
        have hf2 : Frame data1
            (if ph.2 = sortedHint.decreasingHint then reverseRange data1 a b else data1) a b := by
          split
          · exact reverseRange_frame data1 a b hab hb1
          · exact Frame.refl _ _ _
        generalize (if ph.2 = sortedHint.decreasingHint then reverseRange data1 a b else data1)
          = data2 at hf2 ⊢
        have hpv : a ≤ (if ph.2 = sortedHint.decreasingHint then b - 1 - (ph.1 - a) else ph.1) ∧
            (if ph.2 = sortedHint.decreasingHint then b - 1 - (ph.1 - a) else ph.1) < b := by
          split <;> omega
        generalize (if ph.2 = sortedHint.decreasingHint then b - 1 - (ph.1 - a) else ph.1)
          = pivot at hpv ⊢
        generalize (if ph.2 = sortedHint.decreasingHint then sortedHint.increasingHint else ph.2)
          = hint
        have hb2 : b ≤ data2.length := by rw [hf2.length_eq]; exact hb1
        have hlb2 : LowerBound data2 a b := hlb.frame (hf1.trans hf2)
        -- partialInsertionSort
        have hpis : Frame data2
              (if (wb && wp && decide (hint = sortedHint.increasingHint)) = true then
                partialInsertionSort data2 a b else (data2, false)).1 a b ∧
            ((if (wb && wp && decide (hint = sortedHint.increasingHint)) = true then
                partialInsertionSort data2 a b else (data2, false)).2 = true →
              SortedOn (if (wb && wp && decide (hint = sortedHint.increasingHint)) = true then
                partialInsertionSort data2 a b else (data2, false)).1 a b) := by
          split
          · exact partialInsertionSort_spec data2 a b hab hb2 hlb2
          · exact ⟨Frame.refl _ _ _, fun h => by simp at h⟩
        generalize (if (wb && wp && decide (hint = sortedHint.increasingHint)) = true then
          partialInsertionSort data2 a b else (data2, false)) = pis at hpis ⊢
        obtain ⟨data3, flag⟩ := pis
        simp only at hpis ⊢
        obtain ⟨hf3, hsorted3⟩ := hpis
        have hfr3 : Frame data data3 a b := (hf1.trans hf2).trans hf3
        have hb3 : b ≤ data3.length := by rw [hfr3.length_eq]; exact hb
        have hlb3 : LowerBound data3 a b := hlb.frame hfr3
        by_cases hflag : flag = true
        · simp only [hflag, if_true]
          exact ⟨hfr3, hsorted3 hflag⟩
        · simp only [hflag, Bool.false_eq_true, if_false]
          by_cases heq : (decide (0 < a) && !ShardInfoSlice.Less data3 (a - 1) pivot) = true
          · simp only [heq, if_true]
            simp only [Bool.and_eq_true, decide_eq_true_eq, Bool.not_eq_true'] at heq
            obtain ⟨ha0, hnl⟩ := heq
            have hpa : key data3 pivot ≤ key data3 (a - 1) :=
              (not_less_iff data3 (a - 1) pivot (by omega) (by omega)).1 hnl
            obtain ⟨e1, e2, e3, e4, e5⟩ := partitionEqual_spec data3 a b pivot hab hb3 hpv.1 hpv.2
            generalize partitionEqual data3 a b pivot = pe at e1 e2 e3 e4 e5 ⊢
            obtain ⟨d4, mid⟩ := pe
            simp only at e1 e2 e3 e4 e5 ⊢
            have hge : ∀ k, a ≤ k → k < b → key data3 pivot ≤ key d4 k := by
              intro k hk1 hk2
              obtain ⟨m, hm1, hm2, hm⟩ := e1.key_inside k hk1 hk2
              rw [hm]
              exact le_trans hpa (hlb3 ha0 m hm1 hm2)
            have hb4 : b ≤ d4.length := by rw [e1.length_eq]; exact hb3
            obtain ⟨g1, g2⟩ := ih d4 mid b limit1 wb wp hb4 (by omega) (by
              intro _ k hk1 hk2
              exact le_trans (e4 (mid - 1) (by omega) (by omega)) (le_of_lt (e5 k hk1 hk2)))
            refine ⟨(hfr3.trans e1).trans (g1.widen (by omega) (le_refl _)), ?_⟩
            intro i j hi hij hj
            by_cases hjm : j < mid
            · rw [g1.key_outside i (Or.inl (by omega)), g1.key_outside j (Or.inl hjm)]
              exact le_trans (e4 i hi (by omega)) (hge j (by omega) hj)
            · by_cases him : i < mid
              · rw [g1.key_outside i (Or.inl him)]
                obtain ⟨m, hm1, hm2, hm⟩ := g1.key_inside j (by omega) hj
                rw [hm]
                exact le_trans (e4 i hi him) (le_of_lt (e5 m hm1 hm2))
              · exact g2 i j (by omega) hij hj
          · simp only [heq, Bool.false_eq_true, if_false]
            obtain ⟨q1, q2, q3, q4, q5⟩ := partition_spec data3 a b pivot hab hb3 hpv.1 hpv.2
            generalize partition data3 a b pivot = r at q1 q2 q3 q4 q5 ⊢
            obtain ⟨d4, mid, already⟩ := r
            simp only at q1 q2 q3 q4 q5 ⊢
            have hb4 : b ≤ d4.length := by rw [q1.length_eq]; exact hb3
            have hlb4 : LowerBound d4 a b := hlb3.frame q1
            by_cases hlr : mid - a < b - mid
            · simp only [hlr, if_true]
              obtain ⟨g1, g2⟩ := ih d4 a mid limit1 true true (by omega) (by omega)
                (fun ha0 k hk1 hk2 => hlb4 ha0 k hk1 (by omega))
              generalize pdqsort fuel d4 a mid limit1 true true = t1 at g1 g2 ⊢
              have hb5 : b ≤ t1.length := by rw [g1.length_eq]; exact hb4
              obtain ⟨g3, g4⟩ := ih t1 (mid + 1) b limit1 (decide (mid - a ≥ (b - a) / 8))
                already hb5 (by omega) (by
                  intro _ k hk1 hk2
                  simp only [Nat.add_sub_cancel]
                  rw [g1.key_outside mid (Or.inr (le_refl _)),
                    g1.key_outside k (Or.inr (by omega))]
                  exact q5 k (by omega) hk2)
              generalize pdqsort fuel t1 (mid + 1) b limit1 (decide (mid - a ≥ (b - a) / 8))
                already = t2 at g3 g4 ⊢
              refine ⟨(hfr3.trans q1).trans ((g1.widen (le_refl _) (by omega)).trans
                (g3.widen (by omega) (le_refl _))), ?_⟩
              apply sortedOn_glue d4 t2 a b mid q4 q5
              · rw [g3.key_outside mid (Or.inl (by omega)),
                  g1.key_outside mid (Or.inr (le_refl _))]
              · intro k hk1 hk2
                rw [g3.key_outside k (Or.inl (by omega))]
                exact g1.key_inside k hk1 hk2
              · intro k hk1 hk2
                obtain ⟨m, hm1, hm2, hm⟩ := g3.key_inside k (by omega) hk2
                exact ⟨m, by omega, hm2, by rw [hm, g1.key_outside m (Or.inr (by omega))]⟩
              · intro i j hi hij hj
                rw [g3.key_outside i (Or.inl (by omega)), g3.key_outside j (Or.inl (by omega))]
                exact g2 i j hi hij hj
              · exact g4
            · simp only [hlr, if_false]
              obtain ⟨g1, g2⟩ := ih d4 (mid + 1) b limit1 true true hb4 (by omega) (by
                intro _ k hk1 hk2
                simp only [Nat.add_sub_cancel]
                exact q5 k (by omega) hk2)
              generalize pdqsort fuel d4 (mid + 1) b limit1 true true = t1 at g1 g2 ⊢
              have hb5 : b ≤ t1.length := by rw [g1.length_eq]; exact hb4
              obtain ⟨g3, g4⟩ := ih t1 a mid limit1 (decide (b - mid ≥ (b - a) / 8))
                already (by omega) (by omega) (by
                  intro ha0 k hk1 hk2
                  rw [g1.key_outside (a - 1) (Or.inl (by omega)),
                    g1.key_outside k (Or.inl (by omega))]
                  exact hlb4 ha0 k hk1 (by omega))
              generalize pdqsort fuel t1 a mid limit1 (decide (b - mid ≥ (b - a) / 8))
                already = t2 at g3 g4 ⊢
              refine ⟨(hfr3.trans q1).trans ((g1.widen (by omega) (le_refl _)).trans
                (g3.widen (le_refl _) (by omega))), ?_⟩
              apply sortedOn_glue d4 t2 a b mid q4 q5
              · rw [g3.key_outside mid (Or.inr (le_refl _)),
                  g1.key_outside mid (Or.inl (by omega))]
              · intro k hk1 hk2
                obtain ⟨m, hm1, hm2, hm⟩ := g3.key_inside k hk1 hk2
                exact ⟨m, hm1, hm2, by rw [hm, g1.key_outside m (Or.inl (by omega))]⟩
              · intro k hk1 hk2
                rw [g3.key_outside k (Or.inr (by omega))]
                obtain ⟨m, hm1, hm2, hm⟩ := g1.key_inside k (by omega) hk2
                exact ⟨m, by omega, hm2, hm⟩
              · exact g4
              · intro i j hi hij hj
                rw [g3.key_outside i (Or.inr (by omega)), g3.key_outside j (Or.inr (by omega))]
                exact g2 i j hi hij hj

theorem sortSort_frame_sorted (data : ShardInfoSlice) :
    Frame data (sortSort data) 0 data.length ∧ SortedOn (sortSort data) 0 data.length := by
  unfold sortSort
  simp only [ShardInfoSlice.Len]
  by_cases h : data.length ≤ 1
  · simp only [h, if_true]
    exact ⟨Frame.refl _ _ _, sortedOn_of_le (by omega)⟩
  · simp only [h, if_false]
    exact pdqsort_spec data.length data 0 data.length _ true true (le_refl _) (by omega)
      (fun h0 => by omega)

theorem sortSort_perm (data : ShardInfoSlice) : (sortSort data).Perm data :=
  (sortSort_frame_sorted data).1.2.1

theorem sortSort_length (data : ShardInfoSlice) : (sortSort data).length = data.length :=
  (sortSort_frame_sorted data).1.1

theorem key_eq_getElem (s : ShardInfoSlice) (i : Nat) (hi : i < s.length) :
    key s i = (s.get ⟨i, hi⟩).RTT := by
  simp [key, List.getElem?_eq_getElem hi]

theorem sortedOn_iff_sorted (s : ShardInfoSlice) :
    SortedOn s 0 s.length ↔ s.Sorted (fun x y => x.RTT ≤ y.RTT) := by
  rw [List.Sorted, List.pairwise_iff_getElem]
  constructor
  · intro h i j hi hj hij
    have := h i j (Nat.zero_le _) hij hj
    rw [key_eq_getElem s i hi, key_eq_getElem s j hj] at this
    exact this
  · intro h i j _ hij hj
    rw [key_eq_getElem s i (by omega), key_eq_getElem s j hj]
    exact h i j (by omega) hj hij

theorem sortSort_sorted (data : ShardInfoSlice) :
    (sortSort data).Sorted (fun x y => x.RTT ≤ y.RTT) := by
  rw [← sortedOn_iff_sorted, sortSort_length]
  exact (sortSort_frame_sorted data).2

/-! A ranked slice is left as it is. -/

theorem bitsLen_pos (fuel n : Nat) (hf : 0 < fuel) (hn : 0 < n) : bitsLen fuel n ≠ 0 := by
  cases fuel with
  | zero => omega
  | succ fuel =>
    have : n ≠ 0 := by omega
    simp [bitsLen, this]

theorem sortSort_of_sorted (data : ShardInfoSlice)
    (hs : data.Sorted (fun x y => x.RTT ≤ y.RTT)) : sortSort data = data := by
  rw [← sortedOn_iff_sorted] at hs
  unfold sortSort
  simp only [ShardInfoSlice.Len]
  by_cases h : data.length ≤ 1
  · simp only [h, if_true]
  · simp only [h, if_false]
    obtain ⟨n, hn⟩ : ∃ n, data.length = n + 1 := ⟨data.length - 1, by omega⟩
    rw [hn]
    simp only [pdqsort]
    by_cases h12 : n + 1 ≤ 12
    · have : n + 1 - 0 ≤ 12 := by omega
      simp only [this, if_true]
      exact insertionSort_id data 0 (n + 1) (by omega) (by rw [← hn]; exact hs)
    · have h12b : ¬ n + 1 - 0 ≤ 12 := by omega
      have hlim : bitsLen (n + 1) (n + 1) ≠ 0 := bitsLen_pos _ _ (by omega) (by omega)
      have hs2 : SortedOn data 0 (n + 1) := by rw [← hn]; exact hs
      have hcp := choosePivot_sorted data 0 (n + 1) (by omega) hs2
      have hpis := partialInsertionSort_sorted data 0 (n + 1) (by omega) (by omega) hs2
      simp [h12b, hlim, hcp, hpis]
      intro hh
      omega

theorem sortSort_idem (data : ShardInfoSlice) : sortSort (sortSort data) = sortSort data :=
  sortSort_of_sorted _ (sortSort_sorted data)

theorem sortSort_stable_le_twelve (data : ShardInfoSlice) (h : data.length ≤ 12) (r : ℚ) :
    withRTT r (sortSort data) = withRTT r data := by
  unfold sortSort
  simp only [ShardInfoSlice.Len]
  by_cases h1 : data.length ≤ 1
  · simp only [h1, if_true]
  · simp only [h1, if_false]
    obtain ⟨n, hn⟩ : ∃ n, data.length = n + 1 := ⟨data.length - 1, by omega⟩
    rw [hn]
    simp only [pdqsort]
    have : n + 1 - 0 ≤ 12 := by omega
    simp only [this, if_true]
    exact insertionSort_stable r data 0 (n + 1) (by omega)

/-! ## Ranking -/

theorem eq_of_perm_of_sorted_of_nodup (l₁ l₂ : List ShardInfo) (hp : l₁.Perm l₂)
    (h₁ : l₁.Sorted (fun a b => a.RTT ≤ b.RTT)) (h₂ : l₂.Sorted (fun a b => a.RTT ≤ b.RTT))
    (hn : (l₁.map (fun x => x.RTT)).Nodup) : l₁ = l₂ := by
  haveI : IsAntisymm ShardInfo (fun a b => a.RTT < b.RTT) :=
    ⟨fun a b hab hba => absurd hab (not_lt.2 hba.le)⟩
  have hn₂ : (l₂.map (fun x => x.RTT)).Nodup := (hp.map _).nodup_iff.1 hn
  have strict : ∀ l : List ShardInfo, l.Sorted (fun a b => a.RTT ≤ b.RTT) →
      (l.map (fun x => x.RTT)).Nodup → l.Sorted (fun a b => a.RTT < b.RTT) := by
    intro l hl hnd
    have hne : l.Pairwise (fun a b => a.RTT ≠ b.RTT) := List.pairwise_map.1 hnd
    exact (List.Pairwise.and hl hne).imp (fun h => lt_of_le_of_ne h.1 h.2)
  exact List.eq_of_perm_of_sorted hp (strict l₁ h₁ hn) (strict l₂ h₂ hn₂)

theorem updateShards_ret (env : Env) (c : Client) (hc : c.connected = true)
    (hl : env.listenOk = true) :
    UpdateShards env c
      = Outcome.ret
          (sortSort ((env.getShards.getD []).map (setRTT (collected env))),
            { c with shards := sortSort ((env.getShards.getD []).map (setRTT (collected env))) })
          (Event.zGetShards :: Event.listenPacket ::
            sendProbes env.resolve (env.getShards.getD []) ++ [Event.closeSocket]) := by
  simp only [UpdateShards, hc, updateRTTs_ret env (env.getShards.getD []) hl]
  rfl

/-- C5: on a connected client whose probing socket opens, `UpdateShards` returns;
the list it returns is `sort.Sort` applied to the list of the collaborator as
left by `updateRTTs`: a rearrangement of that list, in non-decreasing order of
`RTT`, and it is the list stored as the directory of the client; when
`updateRTTs` leaves `[A: 10, B: 5]` the result is `[B, A]`. -/
theorem updateShards_ranked (env : Env) (c : Client)
    (hc : c.connected = true) (hl : env.listenOk = true) :
    ∃ probed tr0 ranked c1 tr,
      updateRTTs env (env.getShards.getD []) = Outcome.ret probed tr0 ∧
      UpdateShards env c = Outcome.ret (ranked, c1) tr ∧
      ranked = sortSort probed ∧
      c1 = { c with shards := ranked } ∧
      ranked.Perm probed ∧
      (∀ (i j : Nat) (hij : i < j) (hj : j < ranked.length),
        (ranked.get ⟨i, lt_trans hij hj⟩).RTT ≤ (ranked.get ⟨j, hj⟩).RTT) ∧
      (∀ a b : String, probed = [{ Addr := a, RTT := 10 }, { Addr := b, RTT := 5 }] →
        ranked = [{ Addr := b, RTT := 5 }, { Addr := a, RTT := 10 }]) := by
  have hret := updateRTTs_ret env (env.getShards.getD []) hl
  have hsorted := sortSort_sorted ((env.getShards.getD []).map (setRTT (collected env)))
  refine ⟨_, _, _, _, _, hret, updateShards_ret env c hc hl, rfl, rfl, sortSort_perm _, ?_, ?_⟩
  · intro i j hij hj
    exact List.pairwise_iff_getElem.1 hsorted i j (lt_trans hij hj) hj hij
  · intro a b hab
    rw [hab] at hsorted ⊢
    have hperm := sortSort_perm [{ Addr := a, RTT := 10 }, { Addr := b, RTT := 5 }]
    have hnodup : ([{ Addr := b, RTT := 5 }, { Addr := a, RTT := 10 }] : List ShardInfo).map
        (fun x => x.RTT) |>.Nodup := by
      simp only [List.map_cons, List.map_nil, List.nodup_cons, List.mem_singleton,
        List.not_mem_nil, not_false_eq_true, List.nodup_nil, and_true]
      norm_num
    have hsorted2 : ([{ Addr := b, RTT := 5 }, { Addr := a, RTT := 10 }] : List ShardInfo).Sorted
        (fun x y => x.RTT ≤ y.RTT) := by
      simp only [List.Sorted, List.pairwise_cons, List.mem_singleton, forall_eq,
        List.not_mem_nil, false_implies, implies_true, List.Pairwise.nil, and_true]
      norm_num
    exact (eq_of_perm_of_sorted_of_nodup _ _ (hperm.trans (List.Perm.swap _ _ _)).symm
      hsorted2 hsorted hnodup).symm

/-- The claim C5 run on the environment in which `A` answers after 10 ms and `B`
after 5 ms: the result is `[B, A]`. -/
theorem updateShards_ranked_witness :
    idleClient.connected = true ∧ rankEnv.listenOk = true ∧
      sortSort [{ Addr := "10.1.0.1:31337", RTT := 10 }, { Addr := "10.1.0.2:31337", RTT := 5 }]
        = [{ Addr := "10.1.0.2:31337", RTT := 5 }, { Addr := "10.1.0.1:31337", RTT := 10 }] ∧
      ∃ tr, UpdateShards rankEnv idleClient
        = Outcome.ret
            ([{ Addr := "10.1.0.2:31337", RTT := 5 }, { Addr := "10.1.0.1:31337", RTT := 10 }],
              { idleClient with
                shards := [{ Addr := "10.1.0.2:31337", RTT := 5 },
                  { Addr := "10.1.0.1:31337", RTT := 10 }] })
            tr := by
  obtain ⟨probed, tr0, ranked, c1, tr, hprobe, hupd, -, hc1, -, -, hscen⟩ :=
    updateShards_ranked rankEnv idleClient rfl rfl
  have hA : collected rankEnv "10.1.0.1:31337" = some [10000000] := by decide
  have hB : collected rankEnv "10.1.0.2:31337" = some [5000000] := by decide
  have hsA : sumRTTs [10000000] = 10000000 := by decide
  have hsB : sumRTTs [5000000] = 5000000 := by decide
  have hprobed : probed = [{ Addr := "10.1.0.1:31337", RTT := 10 },
      { Addr := "10.1.0.2:31337", RTT := 5 }] := by
    rw [updateRTTs_ret rankEnv _ rfl] at hprobe
    injection hprobe with hval _
    rw [← hval]
    have hlist : rankEnv.getShards.getD []
        = [{ Addr := "10.1.0.1:31337", RTT := 0 }, { Addr := "10.1.0.2:31337", RTT := 0 }] := rfl
    simp only [hlist, List.map_cons, List.map_nil, setRTT, hA, hB, hsA, hsB]
    norm_num
  have hranked := hscen _ _ hprobed
  subst hc1
  rw [hranked] at hupd
  exact ⟨rfl, rfl, by decide, tr, hupd⟩

/-! ## Ties -/

/-- C6 fails as stated: `sort.Sort` is not stable on thirteen shards. The
collaborator lists twelve shards with a round-trip time of 1 ms followed by
one with 0 ms and nobody answers; the slice is longer than 12, so `pdqsort`
partitions it around the pivot at position 6, and `UpdateShards` returns the
shards of 1 ms in the order 7, 3, 4, 5, 6, 1, 8, 9, 10, 11, 12, 2 instead of
1 to 12. -/
theorem sortSort_not_stable :
    sortSort thirteenShards
        = [{ Addr := "10.2.0.13:31337", RTT := 0 }, { Addr := "10.2.0.7:31337", RTT := 1 },
            { Addr := "10.2.0.3:31337", RTT := 1 }, { Addr := "10.2.0.4:31337", RTT := 1 },
            { Addr := "10.2.0.5:31337", RTT := 1 }, { Addr := "10.2.0.6:31337", RTT := 1 },
            { Addr := "10.2.0.1:31337", RTT := 1 }, { Addr := "10.2.0.8:31337", RTT := 1 },
            { Addr := "10.2.0.9:31337", RTT := 1 }, { Addr := "10.2.0.10:31337", RTT := 1 },
            { Addr := "10.2.0.11:31337", RTT := 1 }, { Addr := "10.2.0.12:31337", RTT := 1 },
            { Addr := "10.2.0.2:31337", RTT := 1 }] ∧
      withRTT 1 (sortSort thirteenShards) ≠ withRTT 1 thirteenShards ∧
      idleClient.connected = true ∧
      ∃ c1 tr, UpdateShards thirteenEnv idleClient
        = Outcome.ret (sortSort thirteenShards, c1) tr := by
  have hprobed : (thirteenEnv.getShards.getD []).map (setRTT (collected thirteenEnv))
      = thirteenShards := by decide
  have hupd := updateShards_ret thirteenEnv idleClient rfl rfl
  rw [hprobed] at hupd
  exact ⟨by decide, by decide, rfl, _, _, hupd⟩

/-- C6 as amended: the ranking performed in `UpdateShards` (`sort.Sort` with
`Less` = `RTT` strictly smaller) is stable on every list of at most 12 shards:
shards with equal `RTT` keep their relative order; on longer lists it orders by
`RTT` without keeping the order of shards with equal `RTT`. For every list of
any length, a list that is already in non-decreasing order of `RTT` is left as
it is, so ranking a ranked list again yields the identical order. -/
theorem ranking_stable_up_to_twelve (s : ShardInfoSlice) :
    (s.length ≤ 12 → ∀ r, withRTT r (sortSort s) = withRTT r s) ∧
      (s.Sorted (fun x y => x.RTT ≤ y.RTT) → sortSort s = s) ∧
      sortSort (sortSort s) = sortSort s ∧
      (sortSort s).Perm s ∧ (sortSort s).Sorted (fun x y => x.RTT ≤ y.RTT) :=
  ⟨fun h r => sortSort_stable_le_twelve s h r, sortSort_of_sorted s, sortSort_idem s,
    sortSort_perm s, sortSort_sorted s⟩

/-- The amended claim C6 run on two shards with the same round-trip time: they
keep their order, and ranking the thirteen shards twice gives the same list
as ranking them once. -/
theorem ranking_stable_up_to_twelve_witness :
    tiedShards.length ≤ 12 ∧ withRTT 7 (sortSort tiedShards) = withRTT 7 tiedShards ∧
      sortSort tiedShards = tiedShards ∧
      sortSort (sortSort thirteenShards) = sortSort thirteenShards :=
  ⟨by decide, (ranking_stable_up_to_twelve tiedShards).1 (by decide) 7, by decide,
    (ranking_stable_up_to_twelve thirteenShards).2.2.1⟩

end Shitama
